import Mathlib

/-!
Verification of the RedToken honeytoken lifecycle engine.

Shallow embedding of the Rust sources:
* `src/core/token.rs` — the `Honeytoken` entity and the `TokenRepository` trait;
* `src/core/error.rs` — the error taxonomy (`RedTokenError`);
* `src/core/notification.rs` / `src/infrastructure/notification.rs` — alert channels
  and the composite fan-out dispatcher;
* `src/application/service.rs` — the `RedTokenService` orchestration
  (`inject_token`, `check_token`, `list_tokens`, `remove_token`);
* `src/infrastructure/injection.rs` — the file injector (backup, per-kind
  embedding, literal scrub);
* `src/infrastructure/repository.rs` — the in-memory and file-persisted stores.

Machine integers do not occur on the verified paths; identifiers (UUIDs) and
timestamps (`SystemTime`) are modelled as `Nat`, which is faithful because the
code only ever compares identifiers for equality and stores timestamps opaquely.
Asynchronous effects are modelled by explicit state passing: the filesystem is a
path-to-contents map, fallible operations return `Except`, and the
nondeterministic inputs of the code (UUID generation, clock reads, RNG draws,
HTTP outcomes) are explicit parameters.
-/

namespace RedToken

/-- Model of `RedTokenError` (src/core/error.rs).  The `std::io::Error` payloads
carry no information used by the code, so only the path/message payloads are
kept. -/
inductive Err where
  | FileReadError (path : String)
  | FileWriteError (path : String)
  | InvalidFileFormat (msg : String)
  | TokenValidationError (msg : String)
  | TokenNotFound (msg : String)
  | NotificationError (msg : String)
  | DatabaseError (msg : String)
  | ConfigError (msg : String)
  | UnauthorizedError (msg : String)
  | Unknown (msg : String)
deriving DecidableEq

/-- Model of the `Honeytoken` entity (src/core/token.rs).  `Uuid` and
`SystemTime` are modelled as `Nat`; `last_checked : Option<SystemTime>` as
`Option Nat`. -/
structure Honeytoken where
  id : Nat
  value : String
  file_path : String
  created_at : Nat
  last_checked : Option Nat
  is_triggered : Bool
deriving DecidableEq

/-- `Honeytoken::new` (src/core/token.rs lines 16-25).  `Uuid::new_v4()` and
`SystemTime::now()` are nondeterministic inputs, passed explicitly as `idv` and
`created`. -/
def Honeytoken.new (idv : Nat) (created : Nat) (value : String) (file_path : String) :
    Honeytoken :=
  { id := idv
    value := value
    file_path := file_path
    created_at := created
    last_checked := none
    is_triggered := false }

/-- `Honeytoken::mark_as_triggered` (src/core/token.rs lines 27-30); `now`
models the `SystemTime::now()` read. -/
def Honeytoken.mark_as_triggered (t : Honeytoken) (now : Nat) : Honeytoken :=
  { t with is_triggered := true, last_checked := some now }

/-! ## Token store

Model of `InMemoryTokenRepository` (src/infrastructure/repository.rs lines
14-70): a `HashMap<Uuid, Honeytoken>` under a mutex.  The map is modelled as a
list of records with unique-id insertion; iteration order is unspecified in the
source, and none of the verified properties depend on it.  The trait
(src/core/token.rs lines 33-40) has operations `save`, `find_by_id`,
`find_by_value`, `find_all`, `update` — and, notably, no delete operation. -/

/-- The store contents: the records held in the id-keyed map. -/
abbrev Store : Type := List Honeytoken

/-- `save` — `tokens.insert(token.id, token.clone())`: overwrite the record
with the same id, or add the record. -/
def save (s : Store) (t : Honeytoken) : Store :=
  if s.any (fun u => u.id == t.id) then
    s.map (fun u => if u.id == t.id then t else u)
  else
    s ++ [t]

/-- `find_by_id` — `tokens.get(&id).cloned()`. -/
def find_by_id (s : Store) (idv : Nat) : Option Honeytoken :=
  s.find? (fun u => u.id == idv)

/-- `find_by_value` — `tokens.values().find(|t| t.value == value).cloned()`. -/
def find_by_value (s : Store) (value : String) : Option Honeytoken :=
  s.find? (fun u => u.value == value)

/-- `find_all` — `tokens.values().cloned().collect()`. -/
def find_all (s : Store) : List Honeytoken := s

/-- `update` — same body as `save` (src/infrastructure/repository.rs
lines 62-69). -/
def update (s : Store) (t : Honeytoken) : Store := save s t

/-- The ids of the records in the store are pairwise distinct (the store is a
map keyed by id, so this holds for every reachable store). -/
def ids_unique (s : Store) : Prop :=
  List.Pairwise (fun a b => a.id ≠ b.id) s

/-! ## Filesystem

The filesystem visible to the injector and the file-persisted store: a map from
paths to text contents, modelled as a list with unique-path insertion. -/

/-- Path-to-contents map. -/
abbrev FileSys : Type := List (String × String)

/-- Read a file: `tokio::fs::read_to_string`, `none` when the path does not
exist (the I/O error case). -/
def readFile (fs : FileSys) (p : String) : Option String :=
  (fs.find? (fun e => e.1 == p)).map (fun e => e.2)

/-- Write a file: `tokio::fs::write`, create-or-overwrite. -/
def writeFile (fs : FileSys) (p : String) (c : String) : FileSys :=
  if fs.any (fun e => e.1 == p) then
    fs.map (fun e => if e.1 == p then (p, c) else e)
  else
    fs ++ [(p, c)]

/-! ## Notification dispatcher

Model of `NotificationChannel` (src/core/notification.rs) and
`CompositeNotificationService::send_alert`
(src/infrastructure/notification.rs lines 147-181). -/

/-- `NotificationChannel` (src/core/notification.rs lines 5-17). -/
inductive NotificationChannel where
  | Telegram (webhook_url : String)
  | Discord (webhook_url : String)
  | Email (smtp_server : String) (from_addr : String) (to_addr : String)
deriving DecidableEq

/-- Outcome of one channel's delivery attempt.  `net url` models whether the
synchronous HTTP POST to `url` returns a success status (`send_telegram` /
`send_discord`, lines 31-115); the email branch (`send_email`, lines 117-142)
always returns `Ok` for an `Email` channel in the source. -/
def channel_attempt (net : String → Bool) : NotificationChannel → Bool
  | .Telegram url => net url
  | .Discord url => net url
  | .Email _ _ _ => true

/-- The `for channel in &self.config.channels` loop of `send_alert`: every
channel is attempted, the `success` flag is set by any delivered channel.
Returns (number of delivery attempts made, final success flag). -/
def send_alert_loop (net : String → Bool) : List NotificationChannel → Nat × Bool
  | [] => (0, false)
  | c :: rest =>
    let delivered := channel_attempt net c
    let r := send_alert_loop net rest
    (r.1 + 1, delivered || r.2)

/-- `CompositeNotificationService::send_alert` (lines 147-181): fan out to
every configured channel; `Ok` iff at least one delivered, otherwise the
aggregated failure. -/
def send_alert (net : String → Bool) (channels : List NotificationChannel) :
    Nat × Except Err Unit :=
  let r := send_alert_loop net channels
  (r.1, if r.2 then .ok () else .error (.Unknown ("All notification channels failed")))

/-! ## Lifecycle service

Model of `RedTokenService` (src/application/service.rs).  The service holds
`Box<dyn TokenRepository>`, `Box<dyn FileInjector>`, `Box<dyn
NotificationService>`; the injected collaborators are modelled as function
parameters, and the repository operations are the in-memory model above (the
claims about the service assume the repository operations succeed). -/

/-- Which collaborator the service invoked, in invocation order. -/
inductive Call where
  | injector
  | store_save
deriving DecidableEq

/-- Outcome of `RedTokenService::inject_token`. -/
structure InjectOutcome where
  files : FileSys
  store : Store
  calls : List Call
  result : Except Err Honeytoken

/-- `RedTokenService::inject_token` (src/application/service.rs lines 28-39):
construct the token, call the file injector, then save to the repository; `?`
propagates either failure.  `injStep` is the injected `FileInjector`
(its filesystem effect and result), `saveStep` the repository `save` leg. -/
def RedTokenService.inject_token
    (injStep : String → Honeytoken → FileSys → FileSys × Except Err Unit)
    (saveStep : Store → Honeytoken → Except Err Store)
    (idv : Nat) (created : Nat) (file_path : String) (value : String)
    (fs : FileSys) (s : Store) : InjectOutcome :=
  let t := Honeytoken.new idv created value file_path
  match injStep file_path t fs with
  | (fs2, .error e) => ⟨fs2, s, [.injector], .error e⟩
  | (fs2, .ok ()) =>
    match saveStep s t with
    | .error e => ⟨fs2, s, [.injector, .store_save], .error e⟩
    | .ok s2 => ⟨fs2, s2, [.injector, .store_save], .ok t⟩

/-- Outcome of `RedTokenService::check_token`: the store afterwards, the list
of tokens for which an alert dispatch was invoked, and the caller-visible
result. -/
structure CheckOutcome where
  store : Store
  alerts : List Honeytoken
  result : Except Err Unit

/-- `RedTokenService::check_token` (src/application/service.rs lines 41-56):
look up by value; if found and not yet triggered, mark triggered, persist via
`update`, and send the alert — a notification failure (`alertRes`) is logged
and absorbed, never propagated.  In every branch the function returns
`Ok(())`. -/
def RedTokenService.check_token (now : Nat) (alertRes : Honeytoken → Except Err Unit)
    (s : Store) (token_value : String) : CheckOutcome :=
  match find_by_value s token_value with
  | some t =>
    if t.is_triggered then
      ⟨s, [], .ok ()⟩
    else
      let t2 := t.mark_as_triggered now
      let s2 := update s t2
      let _absorbed := alertRes t2
      ⟨s2, [t2], .ok ()⟩
  | none => ⟨s, [], .ok ()⟩

/-- `RedTokenService::list_tokens` (lines 58-60). -/
def RedTokenService.list_tokens (s : Store) : Except Err (List Honeytoken) :=
  .ok (find_all s)

/-- Outcome of `RedTokenService::remove_token`. -/
structure RemoveOutcome where
  store : Store
  files : FileSys
  injector_calls : List (String × Honeytoken)
  result : Except Err Unit

/-- `RedTokenService::remove_token` (src/application/service.rs lines 62-68):
look up by id; if found, call the injector's `remove_token` on the token's
file; in both branches return `Ok(())` (unless the injector errs).  The
repository record is never deleted — the `TokenRepository` trait has no delete
operation. -/
def RedTokenService.remove_token
    (injRemove : String → Honeytoken → FileSys → FileSys × Except Err Unit)
    (s : Store) (fs : FileSys) (token_id : Nat) : RemoveOutcome :=
  match find_by_id s token_id with
  | none => ⟨s, fs, [], .ok ()⟩
  | some t =>
    match injRemove t.file_path t fs with
    | (fs2, .error e) => ⟨s, fs2, [(t.file_path, t)], .error e⟩
    | (fs2, .ok ()) => ⟨s, fs2, [(t.file_path, t)], .ok ()⟩

/-! ## File injector

Model of `FileInjectionService` (src/infrastructure/injection.rs) and the
`FileType` / `InjectionConfig` contract (src/core/injection.rs).  The
nondeterministic inputs are explicit: `copyOk` models whether the OS-level
backup-directory creation and `fs::copy` succeed, `bname` the timestamped
backup filename, `suffix` the random 3-digit suffix, `cmdIdx` the random
template choice. -/

/-- `FileType` (src/core/injection.rs lines 3-10). -/
inductive FileType where
  | Env
  | Json
  | Yaml
  | BashHistory
  | Custom (name : String)
deriving DecidableEq

/-- `InjectionConfig` (src/core/injection.rs lines 19-25).  The
token-generation fields (`token_prefix`, `include_symbols`) only feed
`generate_token`, which is outside the verified claims, and are omitted. -/
structure InjectionConfig where
  file_type : FileType
  backup_enabled : Bool
  injection_pattern : Option String

/-- `FileInjectionService::backup_file` (src/infrastructure/injection.rs lines
26-62): no-op when backups are disabled; otherwise copy the unmodified target
into the backup directory under the stamped name `bname`.  `copyOk = false`
models an OS failure of `create_dir_all`/`fs::copy`; a missing source file also
fails the copy.  Failures are propagated (`FileWriteError` on the backup
path). -/
def backup_file (cfg : InjectionConfig) (copyOk : Bool) (bname : String)
    (fs : FileSys) (path : String) : FileSys × Except Err Unit :=
  if cfg.backup_enabled = false then
    (fs, .ok ())
  else if copyOk = false then
    (fs, .error (.FileWriteError bname))
  else
    match readFile fs path with
    | none => (fs, .error (.FileWriteError bname))
    | some c => (writeFile fs bname c, .ok ())

/-! ### Literal string replacement

Model of Rust's `str::replace` (used at src/infrastructure/injection.rs line
326): replace every leftmost non-overlapping occurrence of the pattern.  The
scan is written with an explicit fuel argument (structurally decreasing, one
unit per scanned position) so that the definition reduces in the kernel; the
wrapper supplies `s.length` fuel, which the lemmas below show is always
enough. -/

/-- `leadsWith pat s` — `pat` is a prefix of `s`. -/
def leadsWith : List Char → List Char → Bool
  | [], _ => true
  | _ :: _, [] => false
  | p :: ps, c :: cs => p == c && leadsWith ps cs

/-- Fueled scan of `str::replace`: at each position, if the (non-empty)
pattern matches, emit the replacement and skip the match, else keep one
character. -/
def listReplaceF (pat rep : List Char) : Nat → List Char → List Char
  | _, [] => []
  | 0, s => s
  | fuel + 1, c :: rest =>
    if pat ≠ [] ∧ leadsWith pat (c :: rest) = true then
      rep ++ listReplaceF pat rep fuel ((c :: rest).drop pat.length)
    else
      c :: listReplaceF pat rep fuel rest

/-- `str::replace` on character lists. -/
def listReplace (pat rep s : List Char) : List Char :=
  listReplaceF pat rep s.length s

/-- Fueled count of leftmost non-overlapping occurrences — the number of
replacements `str::replace` performs. -/
def countOccF (pat : List Char) : Nat → List Char → Nat
  | _, [] => 0
  | 0, _ => 0
  | fuel + 1, c :: rest =>
    if pat ≠ [] ∧ leadsWith pat (c :: rest) = true then
      1 + countOccF pat fuel ((c :: rest).drop pat.length)
    else
      countOccF pat fuel rest

/-- Number of leftmost non-overlapping occurrences of `pat` in `s`. -/
def countOcc (pat s : List Char) : Nat :=
  countOccF pat s.length s

/-- `content.replace(&token.value, "[REDACTED]")` on `String`s. -/
def rust_replace (content pat rep : String) : String :=
  ⟨listReplace pat.data rep.data content.data⟩

/-- `FileInjectionService::inject_env` (lines 91-125): backup, read, append a
commented marker line and `API_TOKEN_<suffix>=value`, write back. -/
def inject_env (cfg : InjectionConfig) (copyOk : Bool) (bname : String) (suffix : Nat)
    (fs : FileSys) (path : String) (t : Honeytoken) : FileSys × Except Err Unit :=
  match backup_file cfg copyOk bname fs path with
  | (fs1, .error e) => (fs1, .error e)
  | (fs1, .ok ()) =>
    match readFile fs1 path with
    | none => (fs1, .error (.FileReadError path))
    | some content =>
      let var_name := "API_TOKEN_" ++ toString suffix
      let new_content :=
        content.trimRight ++ "\n\n# Added by RedToken\n" ++ var_name ++ "=" ++ t.value ++ "\n"
      (writeFile fs1 path new_content, .ok ())

/-- The fixed template set of `inject_bash_history` (lines 239-253). -/
def fake_commands (v : String) : List String :=
  [ "curl -H \x27Authorization: Bearer " ++ v ++ "\x27 https://api.example.com/v1/users"
  , "aws s3 cp myfile.txt s3://mybucket --secret-key " ++ v
  , "git clone https://" ++ v ++ "@github.com/myorg/myrepo.git"
  , "export API_KEY=" ++ v ]

/-- `FileInjectionService::inject_bash_history` (lines 225-271): backup, read,
append one randomly chosen fake command carrying the token value. -/
def inject_bash_history (cfg : InjectionConfig) (copyOk : Bool) (bname : String)
    (cmdIdx : Nat) (fs : FileSys) (path : String) (t : Honeytoken) :
    FileSys × Except Err Unit :=
  match backup_file cfg copyOk bname fs path with
  | (fs1, .error e) => (fs1, .error e)
  | (fs1, .ok ()) =>
    match readFile fs1 path with
    | none => (fs1, .error (.FileReadError path))
    | some content =>
      let command := (fake_commands t.value).getD (cmdIdx % 4) ""
      let new_content := content.trimRight ++ "\n" ++ command ++ "\n"
      (writeFile fs1 path new_content, .ok ())

/-- `FileInjectionService::remove_token` (lines 309-338): backup, read,
replace every literal occurrence of the token value by `[REDACTED]`, write
back. -/
def FileInjectionService.remove_token (cfg : InjectionConfig) (copyOk : Bool)
    (bname : String) (fs : FileSys) (path : String) (t : Honeytoken) :
    FileSys × Except Err Unit :=
  match backup_file cfg copyOk bname fs path with
  | (fs1, .error e) => (fs1, .error e)
  | (fs1, .ok ()) =>
    match readFile fs1 path with
    | none => (fs1, .error (.FileReadError path))
    | some content =>
      let new_content := rust_replace content t.value "[REDACTED]"
      (writeFile fs1 path new_content, .ok ())

/-! ### Structured documents

Models of `serde_json::Value` and `serde_yaml::Value`.  JSON numbers
(`i64`/`u64`/`f64` in serde) are modelled as `Int`; no verified claim inspects
numeric payloads.  JSON objects are key-to-value maps with `String` keys; YAML
mappings have arbitrary values as keys, as in `serde_yaml`.  Map iteration
order abstracts the source containers' order (`BTreeMap` / insertion-ordered
mapping); no verified claim depends on entry order. -/

/-- `serde_json::Value`. -/
inductive JsonValue where
  | null
  | bool (b : Bool)
  | num (n : Int)
  | str (s : String)
  | arr (elems : List JsonValue)
  | obj (entries : List (String × JsonValue))

/-- `serde_yaml::Value`. -/
inductive YamlValue where
  | null
  | bool (b : Bool)
  | num (n : Int)
  | str (s : String)
  | seq (elems : List YamlValue)
  | map (entries : List (YamlValue × YamlValue))

mutual

/-- Structural equality of YAML values — `serde_yaml::Value`'s `Eq`, used by
`Mapping::insert` to compare keys. -/
def ybeq : YamlValue → YamlValue → Bool
  | .null, .null => true
  | .bool a, .bool b => a == b
  | .num a, .num b => a == b
  | .str a, .str b => a == b
  | .seq xs, .seq ys => ybeqList xs ys
  | .map xs, .map ys => ybeqEntries xs ys
  | _, _ => false

/-- Elementwise `ybeq` on sequences. -/
def ybeqList : List YamlValue → List YamlValue → Bool
  | [], [] => true
  | x :: xs, y :: ys => ybeq x y && ybeqList xs ys
  | _, _ => false

/-- Elementwise `ybeq` on mapping entries. -/
def ybeqEntries : List (YamlValue × YamlValue) → List (YamlValue × YamlValue) → Bool
  | [], [] => true
  | (k, v) :: es, (k2, v2) :: es2 => (ybeq k k2 && ybeq v v2) && ybeqEntries es es2
  | _, _ => false

end

/-- `serde_json::Map::insert` on the entry list: overwrite the value of an
existing key, else add the entry. -/
def obj_insert (entries : List (String × JsonValue)) (k : String) (v : JsonValue) :
    List (String × JsonValue) :=
  if entries.any (fun e => e.1 == k) then
    entries.map (fun e => if e.1 == k then (k, v) else e)
  else
    entries ++ [(k, v)]

/-- The JSON transformation of `inject_json` (lines 148-155): object root —
insert the generated key mapping to the token value; non-object root — replace
it with a new single-key object. -/
def json_insert (v : JsonValue) (key : String) (token_value : String) : JsonValue :=
  match v with
  | .obj entries => .obj (obj_insert entries key (.str token_value))
  | _ => .obj [(key, .str token_value)]

/-- `serde_yaml::Mapping::insert` on the entry list: overwrite the value of an
existing key, else add the entry.  Keys are compared by value equality. -/
def ymap_insert (entries : List (YamlValue × YamlValue)) (k : YamlValue) (v : YamlValue) :
    List (YamlValue × YamlValue) :=
  if entries.any (fun e => ybeq e.1 k) then
    entries.map (fun e => if ybeq e.1 k then (k, v) else e)
  else
    entries ++ [(k, v)]

/-- The YAML transformation of `inject_yaml` (lines 194-207): mapping root —
insert `String(key) ↦ String(token.value)`; non-mapping root — replace it with
a new single-entry mapping. -/
def yaml_insert (v : YamlValue) (key : String) (token_value : String) : YamlValue :=
  match v with
  | .map entries => .map (ymap_insert entries (.str key) (.str token_value))
  | _ => .map [(.str key, .str token_value)]

/-- A serializer/deserializer pair for document type `α`, the seam to the
external `serde_json`/`serde_yaml` codecs (`to_string_pretty` /
`from_str`). -/
structure Codec (α : Type) where
  ser : α → String
  par : String → Option α

/-- The codec contract the serde libraries provide: serializing a document and
parsing it back yields the document. -/
def Codec.RoundTrip {α : Type} (c : Codec α) : Prop :=
  ∀ v, c.par (c.ser v) = some v

/-- `FileInjectionService::inject_json` (lines 127-171): backup, read, parse
(`InvalidFileFormat` on parse failure), insert the generated key, re-serialize
and write back.  `jc` is the JSON codec. -/
def inject_json (cfg : InjectionConfig) (copyOk : Bool) (bname : String)
    (key : String) (jc : Codec JsonValue) (fs : FileSys) (path : String)
    (t : Honeytoken) : FileSys × Except Err Unit :=
  match backup_file cfg copyOk bname fs path with
  | (fs1, .error e) => (fs1, .error e)
  | (fs1, .ok ()) =>
    match readFile fs1 path with
    | none => (fs1, .error (.FileReadError path))
    | some content =>
      match jc.par content with
      | none => (fs1, .error (.InvalidFileFormat ("Invalid JSON")))
      | some v =>
        let v2 := json_insert v key t.value
        (writeFile fs1 path (jc.ser v2), .ok ())

/-- `FileInjectionService::inject_yaml` (lines 173-223): same shape as
`inject_json` over the YAML document model.  `yc` is the YAML codec. -/
def inject_yaml (cfg : InjectionConfig) (copyOk : Bool) (bname : String)
    (key : String) (yc : Codec YamlValue) (fs : FileSys) (path : String)
    (t : Honeytoken) : FileSys × Except Err Unit :=
  match backup_file cfg copyOk bname fs path with
  | (fs1, .error e) => (fs1, .error e)
  | (fs1, .ok ()) =>
    match readFile fs1 path with
    | none => (fs1, .error (.FileReadError path))
    | some content =>
      match yc.par content with
      | none => (fs1, .error (.InvalidFileFormat ("Invalid YAML")))
      | some v =>
        let v2 := yaml_insert v key t.value
        (writeFile fs1 path (yc.ser v2), .ok ())

/-- `FileInjector::inject_token` for `FileInjectionService` (lines 276-299):
dispatch on the configured file type.  For `Custom` with a supplied pattern the
source body is empty (the pattern is never applied) and the operation returns
`Ok`; for `Custom` without a pattern it returns the explicit missing-pattern
error. -/
def FileInjectionService.inject_token (cfg : InjectionConfig) (copyOk : Bool)
    (bname : String) (suffix : Nat) (key : String) (cmdIdx : Nat)
    (jc : Codec JsonValue) (yc : Codec YamlValue)
    (fs : FileSys) (path : String) (t : Honeytoken) : FileSys × Except Err Unit :=
  match cfg.file_type with
  | .Env => inject_env cfg copyOk bname suffix fs path t
  | .Json => inject_json cfg copyOk bname key jc fs path t
  | .Yaml => inject_yaml cfg copyOk bname key yc fs path t
  | .BashHistory => inject_bash_history cfg copyOk bname cmdIdx fs path t
  | .Custom _ =>
    match cfg.injection_pattern with
    | some _ => (fs, .ok ())
    | none => (fs, .error (.Unknown ("Custom file type requires an injection pattern")))

/-- `FileInjectionService::verify_injection` (lines 301-307): the file's
current contents contain the exact token value. -/
def FileInjectionService.verify_injection (fs : FileSys) (path : String)
    (t : Honeytoken) : Except Err Bool :=
  match readFile fs path with
  | none => .error (.FileReadError path)
  | some content => .ok (countOcc t.value.data content.data != 0)

/-! ## File-persisted token store

Model of `FileTokenRepository` (src/infrastructure/repository.rs lines
72-175).  The backing file holds the whole record collection serialized as one
document (`serde_json` over `Vec<Honeytoken>`); the codec is the explicit seam
`dc : Codec (List Honeytoken)`.  Claims about the persisted store assume the
filesystem writes succeed, so `write_db`'s I/O leg is modelled as succeeding;
`read_db`'s parse failure is modelled (`DatabaseError`). -/

/-- The `map.insert(token.id, token)` step on the id-keyed map decoded by
`read_db`: overwrite the record with the same id, else add it. -/
def alist_insert (m : List (Nat × Honeytoken)) (k : Nat) (t : Honeytoken) :
    List (Nat × Honeytoken) :=
  if m.any (fun e => e.1 == k) then
    m.map (fun e => if e.1 == k then (k, t) else e)
  else
    m ++ [(k, t)]

/-- `FileTokenRepository::read_db` (lines 84-114): missing file or blank
contents give the empty map; otherwise decode the record list and key it by
id; a decode failure is a `DatabaseError`. -/
def read_db (dc : Codec (List Honeytoken)) (fs : FileSys) (db_path : String) :
    Except Err (List (Nat × Honeytoken)) :=
  match readFile fs db_path with
  | none => .ok []
  | some content =>
    -- `content.trim().is_empty()` — the contents are all whitespace.
    if content.data.all Char.isWhitespace then .ok []
    else
      match dc.par content with
      | some tokens => .ok (tokens.foldl (fun m t => alist_insert m t.id t) [])
      | none => .error (.DatabaseError ("Failed to parse database"))

/-- `FileTokenRepository::write_db` (lines 116-142): serialize the map's
record list and overwrite the backing file. -/
def write_db (dc : Codec (List Honeytoken)) (fs : FileSys) (db_path : String)
    (m : List (Nat × Honeytoken)) : FileSys :=
  writeFile fs db_path (dc.ser (m.map (fun e => e.2)))

/-- `FileTokenRepository::save` (lines 147-152): read the whole collection,
insert the record, write the whole collection back. -/
def FileTokenRepository.save (dc : Codec (List Honeytoken)) (fs : FileSys)
    (db_path : String) (t : Honeytoken) : Except Err FileSys :=
  match read_db dc fs db_path with
  | .error e => .error e
  | .ok m => .ok (write_db dc fs db_path (alist_insert m t.id t))

/-- `FileTokenRepository::find_all` (lines 164-167). -/
def FileTokenRepository.find_all (dc : Codec (List Honeytoken)) (fs : FileSys)
    (db_path : String) : Except Err (List Honeytoken) :=
  match read_db dc fs db_path with
  | .error e => .error e
  | .ok m => .ok (m.map (fun e => e.2))

/-- A sequence of `FileTokenRepository::save` calls, propagating the first
failure. -/
def FileTokenRepository.save_all (dc : Codec (List Honeytoken)) (db_path : String)
    (fs : FileSys) : List Honeytoken → Except Err FileSys
  | [] => .ok fs
  | t :: rest =>
    match FileTokenRepository.save dc fs db_path t with
    | .error e => .error e
    | .ok fs2 => FileTokenRepository.save_all dc db_path fs2 rest

/-! ## A concrete round-tripping codec

The theorems about structured documents and the persisted store are stated for
any codec satisfying `Codec.RoundTrip` — the contract the serde libraries
provide.  To instantiate those theorems on concrete inputs, this section
builds one explicit injective encoding with a verified decoder.  The concrete
syntax is immaterial: no verified claim inspects the serialized text. -/

/-- Encode a natural number in unary, terminated by `N`. -/
def encNat : Nat → List Char
  | 0 => ['N']
  | n + 1 => 'I' :: encNat n

/-- Decode `encNat`. -/
def decNat : List Char → Option (Nat × List Char)
  | [] => none
  | c :: cs =>
    if c = 'N' then some (0, cs)
    else if c = 'I' then (decNat cs).map (fun r => (r.1 + 1, r.2))
    else none

/-- Encode a string: unary length, then the raw characters. -/
def encStr (s : String) : List Char :=
  encNat s.length ++ s.data

/-- Decode `encStr`. -/
def decStr (cs : List Char) : Option (String × List Char) :=
  match decNat cs with
  | none => none
  | some (n, r) =>
    if n ≤ r.length then some (⟨r.take n⟩, r.drop n) else none

/-- Encode an integer: sign tag, then unary magnitude. -/
def encInt (n : Int) : List Char :=
  if n < 0 then '-' :: encNat n.natAbs else '+' :: encNat n.natAbs

/-- Decode `encInt`. -/
def decInt : List Char → Option (Int × List Char)
  | [] => none
  | c :: cs =>
    if c = '-' then (decNat cs).map (fun r => (-(r.1 : Int), r.2))
    else if c = '+' then (decNat cs).map (fun r => ((r.1 : Int), r.2))
    else none

/-- Encode a boolean. -/
def encBool (b : Bool) : List Char :=
  [if b then 'T' else 'F']

/-- Decode `encBool`. -/
def decBool : List Char → Option (Bool × List Char)
  | [] => none
  | c :: cs =>
    if c = 'T' then some (true, cs)
    else if c = 'F' then some (false, cs)
    else none

/-- Encode an optional natural number. -/
def encOptNat : Option Nat → List Char
  | none => ['X']
  | some n => 'S' :: encNat n

/-- Decode `encOptNat`. -/
def decOptNat : List Char → Option (Option Nat × List Char)
  | [] => none
  | c :: cs =>
    if c = 'X' then some (none, cs)
    else if c = 'S' then (decNat cs).map (fun r => (some r.1, r.2))
    else none

/-- Encode one honeytoken record: the five attributes in order. -/
def encToken (t : Honeytoken) : List Char :=
  encNat t.id ++ encStr t.value ++ encStr t.file_path ++ encNat t.created_at ++
    encOptNat t.last_checked ++ encBool t.is_triggered

/-- Decode `encToken`. -/
def decToken (cs : List Char) : Option (Honeytoken × List Char) :=
  match decNat cs with
  | none => none
  | some (idv, r1) =>
    match decStr r1 with
    | none => none
    | some (value, r2) =>
      match decStr r2 with
      | none => none
      | some (file_path, r3) =>
        match decNat r3 with
        | none => none
        | some (created, r4) =>
          match decOptNat r4 with
          | none => none
          | some (last, r5) =>
            match decBool r5 with
            | none => none
            | some (trig, r6) =>
              some (⟨idv, value, file_path, created, last, trig⟩, r6)

/-- Encode a record list by concatenation. -/
def encTokenList : List Honeytoken → List Char
  | [] => []
  | t :: rest => encToken t ++ encTokenList rest

/-- Decode a known number of records. -/
def decTokenList : Nat → List Char → Option (List Honeytoken × List Char)
  | 0, cs => some ([], cs)
  | n + 1, cs =>
    match decToken cs with
    | none => none
    | some (t, r) =>
      match decTokenList n r with
      | none => none
      | some (ts, r2) => some (t :: ts, r2)

/-- The concrete database codec: unary record count, then the records; the
decoder requires the whole text to be consumed. -/
def dbCodec : Codec (List Honeytoken) :=
  { ser := fun ts => ⟨encNat ts.length ++ encTokenList ts⟩
    par := fun s =>
      match decNat s.data with
      | none => none
      | some (n, r) =>
        match decTokenList n r with
        | some (ts, []) => some ts
        | _ => none }

/-! ## Round-trip of the concrete database codec -/

theorem decNat_encNat (n : Nat) (r : List Char) :
    decNat (encNat n ++ r) = some (n, r) := by
  induction n with
  | zero => simp [encNat, decNat]
  | succ k ih => simp [encNat, decNat, ih]

theorem decStr_encStr (s : String) (r : List Char) :
    decStr (encStr s ++ r) = some (s, r) := by
  obtain ⟨d⟩ := s
  have hlen : String.length ⟨d⟩ = d.length := rfl
  simp only [encStr, hlen, List.append_assoc, decStr, decNat_encNat]
  have hle : d.length ≤ (d ++ r).length := by
    simp [List.length_append]
  rw [if_pos hle]
  have ht : (d ++ r).take d.length = d := List.take_left d r
  have hd : (d ++ r).drop d.length = r := List.drop_left d r
  rw [ht, hd]

theorem decInt_encInt (n : Int) (r : List Char) :
    decInt (encInt n ++ r) = some (n, r) := by
  by_cases hn : n < 0
  · simp only [encInt, if_pos hn, List.cons_append, decInt]
    simp [decNat_encNat, abs_of_neg hn]
  · simp only [encInt, if_neg hn, List.cons_append, decInt]
    simp [decNat_encNat]
    exact le_of_not_lt hn

theorem decBool_encBool (b : Bool) (r : List Char) :
    decBool (encBool b ++ r) = some (b, r) := by
  cases b <;> simp [encBool, decBool]

theorem decOptNat_encOptNat (o : Option Nat) (r : List Char) :
    decOptNat (encOptNat o ++ r) = some (o, r) := by
  cases o <;> simp [encOptNat, decOptNat, decNat_encNat]

theorem decToken_encToken (t : Honeytoken) (r : List Char) :
    decToken (encToken t ++ r) = some (t, r) := by
  obtain ⟨idv, value, fp, ca, lc, trig⟩ := t
  simp [encToken, decToken, List.append_assoc, decNat_encNat, decStr_encStr,
    decOptNat_encOptNat, decBool_encBool]

theorem decTokenList_encTokenList (ts : List Honeytoken) (r : List Char) :
    decTokenList ts.length (encTokenList ts ++ r) = some (ts, r) := by
  induction ts generalizing r with
  | nil => simp [encTokenList, decTokenList]
  | cons t rest ih =>
    simp [encTokenList, decTokenList, List.append_assoc, decToken_encToken, ih]

/-- The concrete database codec satisfies the serde round-trip contract. -/
theorem dbCodec_roundtrip : dbCodec.RoundTrip := by
  intro ts
  have h := decTokenList_encTokenList ts []
  rw [List.append_nil] at h
  simp [dbCodec, Codec.RoundTrip, decNat_encNat, h]

/-- Serialized record collections are never all-whitespace text. -/
theorem dbCodec_ser_not_blank (ts : List Honeytoken) :
    (dbCodec.ser ts).data.all Char.isWhitespace = false := by
  cases ts with
  | nil =>
    have hN : Char.isWhitespace 'N' = false := by decide
    simp [dbCodec, encNat, encTokenList, hN]
  | cons t rest =>
    have hI : Char.isWhitespace 'I' = false := by decide
    simp [dbCodec, encNat, hI]

/-! ## Filesystem map lemmas -/

theorem find_map_overwrite (fs : FileSys) (p : String) (c : String) :
    (fs.map (fun e => if e.1 == p then (p, c) else e)).find? (fun e => e.1 == p) =
      if fs.any (fun e => e.1 == p) then some (p, c) else none := by
  induction fs with
  | nil => simp
  | cons e es ih =>
    by_cases he : e.1 = p
    · have he2 : (e.1 == p) = true := by simp [he]
      have hfe : (if e.1 == p then ((p, c) : String × String) else e) = (p, c) := by
        simp [he2]
      rw [List.map_cons, hfe, List.find?_cons_of_pos, List.any_cons, he2,
        Bool.true_or]
      all_goals simp
    · have he2 : (e.1 == p) = false := by simp [he]
      have hfe : (if e.1 == p then ((p, c) : String × String) else e) = e := by
        simp [he2]
      rw [List.map_cons, hfe, List.find?_cons_of_neg, ih, List.any_cons, he2,
        Bool.false_or]
      simp [he2]

theorem find_append_single (fs : FileSys) (p : String) (c : String)
    (h : fs.any (fun e => e.1 == p) = false) :
    (fs ++ [(p, c)]).find? (fun e => e.1 == p) = some (p, c) := by
  induction fs with
  | nil => simp
  | cons e es ih =>
    simp only [List.any_cons, Bool.or_eq_false_iff] at h
    simp [List.find?_cons, h.1, ih h.2]

/-- Reading back a just-written file yields the written contents. -/
theorem readFile_writeFile_self (fs : FileSys) (p : String) (c : String) :
    readFile (writeFile fs p c) p = some c := by
  unfold readFile writeFile
  by_cases hany : fs.any (fun e => e.1 == p) = true
  · rw [if_pos hany, find_map_overwrite, if_pos hany]
    rfl
  · have hf : fs.any (fun e => e.1 == p) = false := by
      revert hany
      cases fs.any (fun e => e.1 == p) <;> simp
    rw [if_neg (by simp [hf]), find_append_single fs p c hf]
    rfl

theorem find_map_other (fs : FileSys) (p q : String) (c : String)
    (hpq : (p == q) = false) :
    (fs.map (fun e => if e.1 == p then (p, c) else e)).find? (fun e => e.1 == q) =
      fs.find? (fun e => e.1 == q) := by
  induction fs with
  | nil => simp
  | cons e es ih =>
    have hq' : ¬p = q := by simpa using hpq
    by_cases he : e.1 = p
    · have he2 : (e.1 == p) = true := by simp [he]
      have heq : (e.1 == q) = false := by rw [he]; exact hpq
      have hfe : (if e.1 == p then ((p, c) : String × String) else e) = (p, c) := by
        simp [he2]
      rw [List.map_cons, hfe, List.find?_cons_of_neg, List.find?_cons_of_neg, ih]
      all_goals simp [hpq, heq]
    · have he2 : (e.1 == p) = false := by simp [he]
      have hfe : (if e.1 == p then ((p, c) : String × String) else e) = e := by
        simp [he2]
      by_cases hq : e.1 = q
      · have hq2 : (e.1 == q) = true := by simp [hq]
        rw [List.map_cons, hfe, List.find?_cons_of_pos, List.find?_cons_of_pos]
        all_goals simp [hq2]
      · have hq2 : (e.1 == q) = false := by simp [hq]
        rw [List.map_cons, hfe, List.find?_cons_of_neg, List.find?_cons_of_neg, ih]
        all_goals simp [hq2]

theorem find_append_other (fs : FileSys) (p q : String) (c : String)
    (hpq : (p == q) = false) :
    (fs ++ [(p, c)]).find? (fun e => e.1 == q) = fs.find? (fun e => e.1 == q) := by
  simp [List.find?_append, hpq]

/-- Writing one file leaves every other path's contents unchanged. -/
theorem readFile_writeFile_ne (fs : FileSys) (p q : String) (c : String)
    (h : q ≠ p) :
    readFile (writeFile fs p c) q = readFile fs q := by
  have hpq : (p == q) = false := beq_eq_false_iff_ne.2 (fun he => h he.symm)
  unfold readFile writeFile
  by_cases hany : fs.any (fun e => e.1 == p) = true
  · rw [if_pos hany, find_map_other fs p q c hpq]
  · rw [if_neg hany, find_append_other fs p q c hpq]

/-! ## A concrete round-tripping JSON document codec -/

mutual

/-- Encode a JSON document: tag character, then payload. -/
def encJson : JsonValue → List Char
  | .null => ['n']
  | .bool true => ['t']
  | .bool false => ['f']
  | .num n => 'z' :: encInt n
  | .str s => 's' :: encStr s
  | .arr xs => 'a' :: encJsonList xs
  | .obj kvs => 'o' :: encJsonEntries kvs

/-- Encode array elements in order, terminated by `e`. -/
def encJsonList : List JsonValue → List Char
  | [] => ['e']
  | v :: vs => encJson v ++ encJsonList vs

/-- Encode object entries (key, then value) in order, terminated by `e`. -/
def encJsonEntries : List (String × JsonValue) → List Char
  | [] => ['e']
  | (k, v) :: kvs => encStr k ++ encJson v ++ encJsonEntries kvs

end

mutual

/-- Decode one JSON document, returning it with the unconsumed remainder. -/
def decJson : List Char → Option (JsonValue × List Char)
  | [] => none
  | c :: cs =>
    if c = 'n' then some (.null, cs)
    else if c = 't' then some (.bool true, cs)
    else if c = 'f' then some (.bool false, cs)
    else if c = 'z' then (decInt cs).map (fun r => (.num r.1, r.2))
    else if c = 's' then (decStr cs).map (fun r => (.str r.1, r.2))
    else if c = 'a' then
      match decJsonList cs with
      | some (xs, r) => some (.arr xs, r)
      | none => none
    else if c = 'o' then
      match decJsonEntries cs with
      | some (kvs, r) => some (.obj kvs, r)
      | none => none
    else none
termination_by cs => (cs.length, 0)

/-- Decode array elements up to the terminator. -/
def decJsonList : List Char → Option (List JsonValue × List Char)
  | [] => none
  | c :: cs =>
    if c = 'e' then some ([], cs)
    else
      match decJson (c :: cs) with
      | none => none
      | some (v, r) =>
        if h : r.length < cs.length + 1 then
          match decJsonList r with
          | none => none
          | some (vs, r2) => some (v :: vs, r2)
        else none
termination_by cs => (cs.length, 1)

/-- Decode object entries up to the terminator. -/
def decJsonEntries : List Char → Option (List (String × JsonValue) × List Char)
  | [] => none
  | c :: cs =>
    if c = 'e' then some ([], cs)
    else
      match decStr (c :: cs) with
      | none => none
      | some (k, r1) =>
        if h1 : r1.length < cs.length + 1 then
          match decJson r1 with
          | none => none
          | some (v, r2) =>
            if h2 : r2.length < cs.length + 1 then
              match decJsonEntries r2 with
              | none => none
              | some (kvs, r3) => some ((k, v) :: kvs, r3)
            else none
        else none
termination_by cs => (cs.length, 1)

end

/-- Every encoded JSON document starts with a tag character other than the
list terminator `e`. -/
theorem encJson_head (v : JsonValue) :
    ∃ c cs, encJson v = c :: cs ∧ ¬c = 'e' := by
  cases v with
  | null => exact ⟨'n', [], rfl, by decide⟩
  | bool b =>
    cases b with
    | false => exact ⟨'f', [], rfl, by decide⟩
    | true => exact ⟨'t', [], rfl, by decide⟩
  | num n => exact ⟨'z', encInt n, rfl, by decide⟩
  | str s => exact ⟨'s', encStr s, rfl, by decide⟩
  | arr xs => exact ⟨'a', encJsonList xs, rfl, by decide⟩
  | obj kvs => exact ⟨'o', encJsonEntries kvs, rfl, by decide⟩

/-- Every encoded string starts with a unary digit, not the terminator `e`. -/
theorem encStr_head (s : String) :
    ∃ c cs, encStr s = c :: cs ∧ ¬c = 'e' := by
  cases hl : s.length with
  | zero => exact ⟨'N', s.data, by simp [encStr, hl, encNat], by decide⟩
  | succ k => exact ⟨'I', encNat k ++ s.data, by simp [encStr, hl, encNat], by decide⟩

mutual

/-- The JSON decoder inverts the encoder on one document. -/
theorem decJson_encJson (v : JsonValue) (r : List Char) :
    decJson (encJson v ++ r) = some (v, r) := by
  cases v with
  | null => simp [encJson, decJson]
  | bool b => cases b <;> simp [encJson, decJson]
  | num n => simp [encJson, decJson, decInt_encInt]
  | str s => simp [encJson, decJson, decStr_encStr]
  | arr xs =>
    have h := decJsonList_encJsonList xs r
    simp [encJson, decJson, h]
  | obj kvs =>
    have h := decJsonEntries_encJsonEntries kvs r
    simp [encJson, decJson, h]
termination_by (sizeOf v, 0)

/-- The JSON decoder inverts the encoder on an element list. -/
theorem decJsonList_encJsonList (xs : List JsonValue) (r : List Char) :
    decJsonList (encJsonList xs ++ r) = some (xs, r) := by
  cases xs with
  | nil => simp [encJsonList, decJsonList]
  | cons v vs =>
    obtain ⟨c, cs, hc, hne⟩ := encJson_head v
    have hv := decJson_encJson v (encJsonList vs ++ r)
    have hrec := decJsonList_encJsonList vs r
    rw [hc] at hv
    simp only [List.cons_append] at hv
    simp only [encJsonList, List.append_assoc, hc, List.cons_append]
    rw [decJsonList]
    rw [if_neg hne]
    simp only [hv]
    rw [dif_pos (by simp only [List.length_append]; omega)]
    simp only [hrec]
termination_by (sizeOf xs, 1)

/-- The JSON decoder inverts the encoder on an entry list. -/
theorem decJsonEntries_encJsonEntries (kvs : List (String × JsonValue)) (r : List Char) :
    decJsonEntries (encJsonEntries kvs ++ r) = some (kvs, r) := by
  cases kvs with
  | nil => simp [encJsonEntries, decJsonEntries]
  | cons e rest =>
    obtain ⟨k, v⟩ := e
    obtain ⟨c, cs, hc, hne⟩ := encStr_head k
    have hk := decStr_encStr k (encJson v ++ (encJsonEntries rest ++ r))
    have hv := decJson_encJson v (encJsonEntries rest ++ r)
    have hrec := decJsonEntries_encJsonEntries rest r
    rw [hc] at hk
    simp only [encJsonEntries, List.append_assoc, hc, List.cons_append] at hk ⊢
    rw [decJsonEntries]
    rw [if_neg hne]
    simp only [hk]
    rw [dif_pos (by simp only [List.length_append]; omega)]
    simp only [hv]
    rw [dif_pos (by simp only [List.length_append]; omega)]
    simp only [hrec]
termination_by (sizeOf kvs, 1)

end

/-- The concrete JSON document codec. -/
def jsonCodec : Codec JsonValue :=
  { ser := fun v => ⟨encJson v⟩
    par := fun s =>
      match decJson s.data with
      | some (v, []) => some v
      | _ => none }

/-- The concrete JSON codec satisfies the serde round-trip contract. -/
theorem jsonCodec_roundtrip : jsonCodec.RoundTrip := by
  intro v
  have h := decJson_encJson v []
  rw [List.append_nil] at h
  simp [jsonCodec, Codec.RoundTrip, h]

/-! ## A concrete round-tripping YAML document codec -/

mutual

/-- Encode a YAML document: tag character, then payload. -/
def encYaml : YamlValue → List Char
  | .null => ['n']
  | .bool true => ['t']
  | .bool false => ['f']
  | .num n => 'z' :: encInt n
  | .str s => 's' :: encStr s
  | .seq xs => 'a' :: encYamlList xs
  | .map kvs => 'o' :: encYamlEntries kvs

/-- Encode sequence elements in order, terminated by `e`. -/
def encYamlList : List YamlValue → List Char
  | [] => ['e']
  | v :: vs => encYaml v ++ encYamlList vs

/-- Encode mapping entries (key document, then value document), terminated by
`e`. -/
def encYamlEntries : List (YamlValue × YamlValue) → List Char
  | [] => ['e']
  | (k, v) :: kvs => encYaml k ++ encYaml v ++ encYamlEntries kvs

end

mutual

/-- Decode one YAML document, returning it with the unconsumed remainder. -/
def decYaml : List Char → Option (YamlValue × List Char)
  | [] => none
  | c :: cs =>
    if c = 'n' then some (.null, cs)
    else if c = 't' then some (.bool true, cs)
    else if c = 'f' then some (.bool false, cs)
    else if c = 'z' then (decInt cs).map (fun r => (.num r.1, r.2))
    else if c = 's' then (decStr cs).map (fun r => (.str r.1, r.2))
    else if c = 'a' then
      match decYamlList cs with
      | some (xs, r) => some (.seq xs, r)
      | none => none
    else if c = 'o' then
      match decYamlEntries cs with
      | some (kvs, r) => some (.map kvs, r)
      | none => none
    else none
termination_by cs => (cs.length, 0)

/-- Decode sequence elements up to the terminator. -/
def decYamlList : List Char → Option (List YamlValue × List Char)
  | [] => none
  | c :: cs =>
    if c = 'e' then some ([], cs)
    else
      match decYaml (c :: cs) with
      | none => none
      | some (v, r) =>
        if h : r.length < cs.length + 1 then
          match decYamlList r with
          | none => none
          | some (vs, r2) => some (v :: vs, r2)
        else none
termination_by cs => (cs.length, 1)

/-- Decode mapping entries up to the terminator. -/
def decYamlEntries : List Char → Option (List (YamlValue × YamlValue) × List Char)
  | [] => none
  | c :: cs =>
    if c = 'e' then some ([], cs)
    else
      match decYaml (c :: cs) with
      | none => none
      | some (k, r1) =>
        if h1 : r1.length < cs.length + 1 then
          match decYaml r1 with
          | none => none
          | some (v, r2) =>
            if h2 : r2.length < cs.length + 1 then
              match decYamlEntries r2 with
              | none => none
              | some (kvs, r3) => some ((k, v) :: kvs, r3)
            else none
        else none
termination_by cs => (cs.length, 1)

end

/-- Every encoded YAML document starts with a tag character other than the
list terminator `e`. -/
theorem encYaml_head (v : YamlValue) :
    ∃ c cs, encYaml v = c :: cs ∧ ¬c = 'e' := by
  cases v with
  | null => exact ⟨'n', [], rfl, by decide⟩
  | bool b =>
    cases b with
    | false => exact ⟨'f', [], rfl, by decide⟩
    | true => exact ⟨'t', [], rfl, by decide⟩
  | num n => exact ⟨'z', encInt n, rfl, by decide⟩
  | str s => exact ⟨'s', encStr s, rfl, by decide⟩
  | seq xs => exact ⟨'a', encYamlList xs, rfl, by decide⟩
  | map kvs => exact ⟨'o', encYamlEntries kvs, rfl, by decide⟩

mutual

/-- The YAML decoder inverts the encoder on one document. -/
theorem decYaml_encYaml (v : YamlValue) (r : List Char) :
    decYaml (encYaml v ++ r) = some (v, r) := by
  cases v with
  | null => simp [encYaml, decYaml]
  | bool b => cases b <;> simp [encYaml, decYaml]
  | num n => simp [encYaml, decYaml, decInt_encInt]
  | str s => simp [encYaml, decYaml, decStr_encStr]
  | seq xs =>
    have h := decYamlList_encYamlList xs r
    simp [encYaml, decYaml, h]
  | map kvs =>
    have h := decYamlEntries_encYamlEntries kvs r
    simp [encYaml, decYaml, h]
termination_by (sizeOf v, 0)

/-- The YAML decoder inverts the encoder on an element list. -/
theorem decYamlList_encYamlList (xs : List YamlValue) (r : List Char) :
    decYamlList (encYamlList xs ++ r) = some (xs, r) := by
  cases xs with
  | nil => simp [encYamlList, decYamlList]
  | cons v vs =>
    obtain ⟨c, cs, hc, hne⟩ := encYaml_head v
    have hv := decYaml_encYaml v (encYamlList vs ++ r)
    have hrec := decYamlList_encYamlList vs r
    rw [hc] at hv
    simp only [List.cons_append] at hv
    simp only [encYamlList, List.append_assoc, hc, List.cons_append]
    rw [decYamlList]
    rw [if_neg hne]
    simp only [hv]
    rw [dif_pos (by simp only [List.length_append]; omega)]
    simp only [hrec]
termination_by (sizeOf xs, 1)

/-- The YAML decoder inverts the encoder on an entry list. -/
theorem decYamlEntries_encYamlEntries (kvs : List (YamlValue × YamlValue)) (r : List Char) :
    decYamlEntries (encYamlEntries kvs ++ r) = some (kvs, r) := by
  cases kvs with
  | nil => simp [encYamlEntries, decYamlEntries]
  | cons e rest =>
    obtain ⟨k, v⟩ := e
    obtain ⟨c, cs, hc, hne⟩ := encYaml_head k
    have hk := decYaml_encYaml k (encYaml v ++ (encYamlEntries rest ++ r))
    have hv := decYaml_encYaml v (encYamlEntries rest ++ r)
    have hrec := decYamlEntries_encYamlEntries rest r
    rw [hc] at hk
    simp only [List.cons_append] at hk
    simp only [encYamlEntries, List.append_assoc, hc, List.cons_append]
    rw [decYamlEntries]
    rw [if_neg hne]
    simp only [hk]
    rw [dif_pos (by simp only [List.length_append]; omega)]
    simp only [hv]
    rw [dif_pos (by simp only [List.length_append]; omega)]
    simp only [hrec]
termination_by (sizeOf kvs, 1)

end

/-- The concrete YAML document codec. -/
def yamlCodec : Codec YamlValue :=
  { ser := fun v => ⟨encYaml v⟩
    par := fun s =>
      match decYaml s.data with
      | some (v, []) => some v
      | _ => none }

/-- The concrete YAML codec satisfies the serde round-trip contract. -/
theorem yamlCodec_roundtrip : yamlCodec.RoundTrip := by
  intro v
  have h := decYaml_encYaml v []
  rw [List.append_nil] at h
  simp [yamlCodec, Codec.RoundTrip, h]

/-! ## Store lemmas for the trigger path -/

/-- If a record is found by value in an id-unique store, then overwriting it
(keyed by its id) with a record carrying the same value makes the overwritten
record the one found by that value. -/
theorem find_by_value_save_same (t t2 : Honeytoken) (v : String)
    (hid : t2.id = t.id) (hv : t2.value = v) :
    ∀ s : Store, ids_unique s → find_by_value s v = some t →
      find_by_value (save s t2) v = some t2 := by
  intro s
  induction s with
  | nil =>
    intro _ hf
    simp [find_by_value] at hf
  | cons u us ih =>
    intro hu hf
    obtain ⟨hu1, hu2⟩ := List.pairwise_cons.1 hu
    by_cases huv : u.value = v
    · have ht : t = u := by
        have := hf
        simp only [find_by_value] at this
        rw [List.find?_cons_of_pos _ (by simp [huv])] at this
        exact (Option.some.inj this).symm
      have hany : ((u :: us).any fun w => w.id == t2.id) = true := by
        simp [List.any_cons, hid, ht]
      rw [save, if_pos hany, List.map_cons]
      rw [show (if u.id == t2.id then t2 else u) = t2 from by simp [hid, ht]]
      rw [find_by_value, List.find?_cons_of_pos _ (by simp [hv])]
    · have hf' : find_by_value us v = some t := by
        have := hf
        simp only [find_by_value] at this
        rw [List.find?_cons_of_neg _ (by simp [huv])] at this
        exact this
      have htmem : t ∈ us := List.mem_of_find?_eq_some hf'
      have hne : ¬u.id = t2.id := by
        rw [hid]
        exact hu1 t htmem
      have hanytail : (us.any fun w => w.id == t2.id) = true := by
        refine List.any_eq_true.2 ⟨t, htmem, ?_⟩
        simp [hid]
      have hany : ((u :: us).any fun w => w.id == t2.id) = true := by
        simp [List.any_cons, hanytail]
      rw [save, if_pos hany, List.map_cons]
      rw [show (if u.id == t2.id then t2 else u) = u from by simp [hne]]
      rw [find_by_value, List.find?_cons_of_neg _ (by simp [huv])]
      have hsave : save us t2 = us.map (fun w => if w.id == t2.id then t2 else w) := by
        rw [save, if_pos hanytail]
      rw [show (List.find? (fun w => w.value == v)
            (us.map fun w => if w.id == t2.id then t2 else w)) =
          find_by_value (save us t2) v from by rw [find_by_value, hsave]]
      exact ih hu2 hf'

/-- A `check_token` against an already-triggered record changes nothing and
dispatches no alert. -/
theorem check_token_triggered_noop (now : Nat) (a : Honeytoken → Except Err Unit)
    (s : Store) (v : String) (t : Honeytoken)
    (hf : find_by_value s v = some t) (ht : t.is_triggered = true) :
    RedTokenService.check_token now a s v = ⟨s, [], .ok ()⟩ := by
  simp [RedTokenService.check_token, hf, ht]

/-! ## The verified claims -/

/-- C2: for every store state and probed value (repository operations
succeeding), `check_token` returns the same uniform success result whether the
value matches no token, an untriggered token, or an already-triggered token —
and even when the alert leg fails; a value matching no token is not an
error. -/
theorem check_token_uniform_success (now : Nat)
    (alertRes : Honeytoken → Except Err Unit) (s : Store) (v : String) :
    (RedTokenService.check_token now alertRes s v).result = .ok () := by
  unfold RedTokenService.check_token
  cases hf : find_by_value s v with
  | none => rfl
  | some t =>
    cases ht : t.is_triggered with
    | true => simp [ht]
    | false => simp [ht]

theorem send_alert_loop_attempts (net : String → Bool)
    (chs : List NotificationChannel) :
    (send_alert_loop net chs).1 = chs.length := by
  induction chs with
  | nil => rfl
  | cons c rest ih => simp [send_alert_loop, ih]

theorem send_alert_loop_flag (net : String → Bool)
    (chs : List NotificationChannel) :
    (send_alert_loop net chs).2 = chs.any (channel_attempt net) := by
  induction chs with
  | nil => rfl
  | cons c rest ih => simp [send_alert_loop, ih, List.any_cons, Bool.or_comm]

/-- C4: `send_alert` attempts delivery on every configured channel regardless
of earlier failures, returns success iff at least one channel delivered, and
an error exactly when no channel delivered. -/
theorem send_alert_fanout_policy (net : String → Bool)
    (channels : List NotificationChannel) :
    (send_alert net channels).1 = channels.length ∧
      ((send_alert net channels).2 = .ok () ↔
        ∃ c ∈ channels, channel_attempt net c = true) := by
  constructor
  · simp [send_alert, send_alert_loop_attempts]
  · rw [show (send_alert net channels).2 =
        (if channels.any (channel_attempt net) then Except.ok ()
         else .error (.Unknown ("All notification channels failed"))) from by
      simp [send_alert, send_alert_loop_flag]]
    by_cases h : channels.any (channel_attempt net) = true
    · simp only [h, if_true]
      simp only [List.any_eq_true] at h
      simpa using h
    · have h' : channels.any (channel_attempt net) = false := by
        revert h
        cases channels.any (channel_attempt net) <;> simp
      simp only [h', Bool.false_eq_true, if_false]
      constructor
      · intro hcontra
        exact absurd hcontra (by simp)
      · intro hex
        have : channels.any (channel_attempt net) = true := by
          simp only [List.any_eq_true]
          simpa using hex
        rw [h'] at this
        exact absurd this (by simp)

/-- C10: for an id not present in the store (repository lookup succeeding),
the lifecycle `remove_token` returns success, never invokes the file injector,
and leaves both the store and the filesystem unchanged. -/
theorem remove_token_missing_id_noop
    (injRemove : String → Honeytoken → FileSys → FileSys × Except Err Unit)
    (s : Store) (fs : FileSys) (idv : Nat)
    (h : find_by_id s idv = none) :
    RedTokenService.remove_token injRemove s fs idv = ⟨s, fs, [], .ok ()⟩ := by
  simp [RedTokenService.remove_token, h]

theorem remove_token_missing_id_noop_witness :
    find_by_id [] 0 = none ∧
      RedTokenService.remove_token (fun _ _ f => (f, Except.ok ())) [] [] 0 =
        ⟨[], [], [], .ok ()⟩ :=
  ⟨rfl, remove_token_missing_id_noop (fun _ _ f => (f, Except.ok ())) [] [] 0 rfl⟩

/-- C3 (divergence witness): the lifecycle `remove_token` on a stored token
scrubs the token's file and reports success, but the store record is NOT
deleted — `find_by_id` still returns the token afterwards, while the claim
(and the spec's deletion requirement) demand that the record be removed. -/
theorem remove_token_leaves_store_record :
    (RedTokenService.remove_token
        (fun p tk f =>
          FileInjectionService.remove_token ⟨.Env, false, none⟩ true ("b") f p tk)
        [⟨1, "tok", "f.txt", 0, none, false⟩]
        [("f.txt", "pre tok post")] 1).result = .ok () ∧
      find_by_id
        (RedTokenService.remove_token
          (fun p tk f =>
            FileInjectionService.remove_token ⟨.Env, false, none⟩ true ("b") f p tk)
          [⟨1, "tok", "f.txt", 0, none, false⟩]
          [("f.txt", "pre tok post")] 1).store 1 =
        some ⟨1, "tok", "f.txt", 0, none, false⟩ ∧
      readFile
        (RedTokenService.remove_token
          (fun p tk f =>
            FileInjectionService.remove_token ⟨.Env, false, none⟩ true ("b") f p tk)
          [⟨1, "tok", "f.txt", 0, none, false⟩]
          [("f.txt", "pre tok post")] 1).files "f.txt" =
        some ("pre [REDACTED] post") := by
  refine ⟨rfl, rfl, rfl⟩

/-- C5: the lifecycle `inject_token` invokes the file injector strictly before
the token store; an injector failure is returned with no store save attempted
and the store unchanged; a store failure after successful injection is
propagated while the filesystem keeps the injector's effect (the embedded
token). -/
theorem inject_token_injector_before_store
    (injStep : String → Honeytoken → FileSys → FileSys × Except Err Unit)
    (saveStep : Store → Honeytoken → Except Err Store)
    (idv created : Nat) (fp v : String) (fs : FileSys) (s : Store) :
    ((RedTokenService.inject_token injStep saveStep idv created fp v fs s).calls =
        [.injector] ∨
      (RedTokenService.inject_token injStep saveStep idv created fp v fs s).calls =
        [.injector, .store_save]) ∧
    (∀ fs2 e, injStep fp (Honeytoken.new idv created v fp) fs = (fs2, .error e) →
      RedTokenService.inject_token injStep saveStep idv created fp v fs s =
        ⟨fs2, s, [.injector], .error e⟩) ∧
    (∀ fs2 e, injStep fp (Honeytoken.new idv created v fp) fs = (fs2, .ok ()) →
      saveStep s (Honeytoken.new idv created v fp) = .error e →
      RedTokenService.inject_token injStep saveStep idv created fp v fs s =
        ⟨fs2, s, [.injector, .store_save], .error e⟩) := by
  refine ⟨?_, ?_, ?_⟩
  · unfold RedTokenService.inject_token
    rcases h : injStep fp (Honeytoken.new idv created v fp) fs with ⟨fs2, r⟩
    cases r with
    | error e => simp [h]
    | ok u =>
      cases u
      cases hs : saveStep s (Honeytoken.new idv created v fp) with
      | error e => simp [h, hs]
      | ok s2 => simp [h, hs]
  · intro fs2 e h
    simp [RedTokenService.inject_token, h]
  · intro fs2 e h hs
    simp [RedTokenService.inject_token, h, hs]

theorem inject_token_injector_before_store_witness :
    ((fun (p : String) (_ : Honeytoken) (f : FileSys) =>
        (f, (Except.error (Err.FileWriteError p) : Except Err Unit))) "a.env"
          (Honeytoken.new 7 3 "tok" "a.env") [] =
        ([], Except.error (Err.FileWriteError ("a.env"))) ∧
      RedTokenService.inject_token
        (fun p _ f => (f, Except.error (Err.FileWriteError p)))
        (fun st t => .ok (save st t)) 7 3 "a.env" "tok" [] [] =
          ⟨[], [], [.injector], .error (.FileWriteError ("a.env"))⟩) ∧
    (RedTokenService.inject_token
        (fun _ _ f => (f, Except.ok ()))
        (fun _ _ => .error (.DatabaseError ("db"))) 7 3 "a.env" "tok" [] [] =
      ⟨[], [], [.injector, .store_save], .error (.DatabaseError ("db"))⟩) :=
  ⟨⟨rfl,
    (inject_token_injector_before_store
      (fun p _ f => (f, Except.error (Err.FileWriteError p)))
      (fun st t => .ok (save st t)) 7 3 "a.env" "tok" [] []).2.1 []
        (Err.FileWriteError ("a.env")) rfl⟩,
    (inject_token_injector_before_store
      (fun _ _ f => (f, Except.ok ()))
      (fun _ _ => .error (.DatabaseError ("db"))) 7 3 "a.env" "tok" [] []).2.2 []
        (Err.DatabaseError ("db")) rfl rfl⟩

/-- C1: a token is untriggered with no `last_checked` immediately after
`inject_token`; one successful `check_token` on its value marks it triggered
with `last_checked` set and dispatches exactly one alert; any subsequent
`check_token` on the same value leaves the store (hence `is_triggered` and
`last_checked`) unchanged and dispatches no alert. -/
theorem token_triggered_once_then_idempotent
    (idv created now now2 : Nat) (a1 a2 : Honeytoken → Except Err Unit)
    (fp value : String) (s : Store) (t : Honeytoken)
    (hu : ids_unique s) (hf : find_by_value s value = some t)
    (ht : t.is_triggered = false) :
    (∀ (injStep : String → Honeytoken → FileSys → FileSys × Except Err Unit)
        (saveStep : Store → Honeytoken → Except Err Store)
        (fs : FileSys) (tok : Honeytoken),
      (RedTokenService.inject_token injStep saveStep idv created fp value fs s).result =
          .ok tok →
        tok.is_triggered = false ∧ tok.last_checked = none) ∧
    RedTokenService.check_token now a1 s value =
      ⟨update s (t.mark_as_triggered now), [t.mark_as_triggered now], .ok ()⟩ ∧
    find_by_value (RedTokenService.check_token now a1 s value).store value =
      some (t.mark_as_triggered now) ∧
    (t.mark_as_triggered now).is_triggered = true ∧
    (t.mark_as_triggered now).last_checked = some now ∧
    RedTokenService.check_token now2 a2
        (RedTokenService.check_token now a1 s value).store value =
      ⟨(RedTokenService.check_token now a1 s value).store, [], .ok ()⟩ := by
  have htv : t.value = value := by
    have := List.find?_some hf
    simpa using this
  have ho1 : RedTokenService.check_token now a1 s value =
      ⟨update s (t.mark_as_triggered now), [t.mark_as_triggered now], .ok ()⟩ := by
    simp [RedTokenService.check_token, hf, ht]
  have hfind : find_by_value (update s (t.mark_as_triggered now)) value =
      some (t.mark_as_triggered now) := by
    show find_by_value (save s (t.mark_as_triggered now)) value =
      some (t.mark_as_triggered now)
    exact find_by_value_save_same t (t.mark_as_triggered now) value rfl
      (by simpa [Honeytoken.mark_as_triggered] using htv) s hu hf
  refine ⟨?_, ho1, ?_, rfl, rfl, ?_⟩
  · intro injStep saveStep fs tok hres
    simp only [RedTokenService.inject_token] at hres
    rcases hi : injStep fp (Honeytoken.new idv created value fp) fs with ⟨fs2, ri⟩
    rw [hi] at hres
    cases ri with
    | error e => simp at hres
    | ok u =>
      cases u
      cases hsv : saveStep s (Honeytoken.new idv created value fp) with
      | error e =>
        rw [hsv] at hres
        simp at hres
      | ok s2 =>
        rw [hsv] at hres
        simp only [Except.ok.injEq] at hres
        constructor <;> simp [← hres, Honeytoken.new]
  · rw [ho1]
    exact hfind
  · rw [ho1]
    exact check_token_triggered_noop now2 a2 _ value (t.mark_as_triggered now) hfind rfl

theorem token_triggered_once_then_idempotent_witness :
    ids_unique [(⟨5, "v", "f", 0, none, false⟩ : Honeytoken)] ∧
    find_by_value [(⟨5, "v", "f", 0, none, false⟩ : Honeytoken)] "v" =
      some ⟨5, "v", "f", 0, none, false⟩ ∧
    (⟨5, "v", "f", 0, none, false⟩ : Honeytoken).is_triggered = false ∧
    RedTokenService.check_token 9 (fun _ => .ok ())
        (RedTokenService.check_token 8 (fun _ => .ok ())
          [(⟨5, "v", "f", 0, none, false⟩ : Honeytoken)] "v").store "v" =
      ⟨(RedTokenService.check_token 8 (fun _ => .ok ())
          [(⟨5, "v", "f", 0, none, false⟩ : Honeytoken)] "v").store, [], .ok ()⟩ :=
  ⟨by simp [ids_unique], rfl, rfl,
    (token_triggered_once_then_idempotent 1 0 8 9 (fun _ => .ok ()) (fun _ => .ok ())
      "f" "v" [(⟨5, "v", "f", 0, none, false⟩ : Honeytoken)]
      ⟨5, "v", "f", 0, none, false⟩ (by simp [ids_unique]) rfl rfl).2.2.2.2.2⟩

/-! ## Common shape of the injector's mutating operations

Every mutating injector operation (`inject_env`, `inject_json`, `inject_yaml`,
`inject_bash_history`, `remove_token`) is: backup, read the target, transform
the contents (possibly failing on a parse error), write the target back.  The
shape is factored out so the backup properties are proved once; each source
operation is proved equal to an instance of the shape. -/

/-- The common backup/read/transform/write shape. -/
def mutating_op (transform : String → Option String) (emsg : String)
    (cfg : InjectionConfig) (copyOk : Bool) (bname : String)
    (fs : FileSys) (path : String) : FileSys × Except Err Unit :=
  match backup_file cfg copyOk bname fs path with
  | (fs1, .error e) => (fs1, .error e)
  | (fs1, .ok ()) =>
    match readFile fs1 path with
    | none => (fs1, .error (.FileReadError path))
    | some content =>
      match transform content with
      | none => (fs1, .error (.InvalidFileFormat emsg))
      | some c2 => (writeFile fs1 path c2, .ok ())

theorem inject_env_shape (cfg : InjectionConfig) (copyOk : Bool) (bname : String)
    (suffix : Nat) (fs : FileSys) (path : String) (t : Honeytoken) :
    ∃ tr em, inject_env cfg copyOk bname suffix fs path t =
      mutating_op tr em cfg copyOk bname fs path := by
  refine ⟨fun content =>
    some (content.trimRight ++ "\n\n# Added by RedToken\n" ++
      ("API_TOKEN_" ++ toString suffix) ++ "=" ++ t.value ++ "\n"), "", ?_⟩
  unfold inject_env mutating_op
  rcases backup_file cfg copyOk bname fs path with ⟨fs1, rb⟩
  cases rb with
  | error e => rfl
  | ok u =>
    cases u
    cases readFile fs1 path with
    | none => rfl
    | some content => rfl

theorem inject_bash_history_shape (cfg : InjectionConfig) (copyOk : Bool)
    (bname : String) (cmdIdx : Nat) (fs : FileSys) (path : String) (t : Honeytoken) :
    ∃ tr em, inject_bash_history cfg copyOk bname cmdIdx fs path t =
      mutating_op tr em cfg copyOk bname fs path := by
  refine ⟨fun content =>
    some (content.trimRight ++ "\n" ++ ((fake_commands t.value).getD (cmdIdx % 4) "") ++
      "\n"), "", ?_⟩
  unfold inject_bash_history mutating_op
  rcases backup_file cfg copyOk bname fs path with ⟨fs1, rb⟩
  cases rb with
  | error e => rfl
  | ok u =>
    cases u
    cases readFile fs1 path with
    | none => rfl
    | some content => rfl

theorem inject_json_shape (cfg : InjectionConfig) (copyOk : Bool) (bname : String)
    (key : String) (jc : Codec JsonValue) (fs : FileSys) (path : String)
    (t : Honeytoken) :
    ∃ tr em, inject_json cfg copyOk bname key jc fs path t =
      mutating_op tr em cfg copyOk bname fs path := by
  refine ⟨fun content =>
    (jc.par content).map (fun v => jc.ser (json_insert v key t.value)),
    "Invalid JSON", ?_⟩
  unfold inject_json mutating_op
  rcases backup_file cfg copyOk bname fs path with ⟨fs1, rb⟩
  cases rb with
  | error e => rfl
  | ok u =>
    cases u
    dsimp only
    cases readFile fs1 path with
    | none => rfl
    | some content =>
      dsimp only
      cases jc.par content with
      | none => rfl
      | some v => rfl

theorem inject_yaml_shape (cfg : InjectionConfig) (copyOk : Bool) (bname : String)
    (key : String) (yc : Codec YamlValue) (fs : FileSys) (path : String)
    (t : Honeytoken) :
    ∃ tr em, inject_yaml cfg copyOk bname key yc fs path t =
      mutating_op tr em cfg copyOk bname fs path := by
  refine ⟨fun content =>
    (yc.par content).map (fun v => yc.ser (yaml_insert v key t.value)),
    "Invalid YAML", ?_⟩
  unfold inject_yaml mutating_op
  rcases backup_file cfg copyOk bname fs path with ⟨fs1, rb⟩
  cases rb with
  | error e => rfl
  | ok u =>
    cases u
    dsimp only
    cases readFile fs1 path with
    | none => rfl
    | some content =>
      dsimp only
      cases yc.par content with
      | none => rfl
      | some v => rfl

theorem remove_token_shape (cfg : InjectionConfig) (copyOk : Bool) (bname : String)
    (fs : FileSys) (path : String) (t : Honeytoken) :
    ∃ tr em, FileInjectionService.remove_token cfg copyOk bname fs path t =
      mutating_op tr em cfg copyOk bname fs path := by
  refine ⟨fun content => some (rust_replace content t.value "[REDACTED]"), "", ?_⟩
  unfold FileInjectionService.remove_token mutating_op
  rcases backup_file cfg copyOk bname fs path with ⟨fs1, rb⟩
  cases rb with
  | error e => rfl
  | ok u =>
    cases u
    cases readFile fs1 path with
    | none => rfl
    | some content => rfl

/-- With backups enabled, an OS-level backup failure aborts the shaped
operation before any mutation: the error propagates and the filesystem is
untouched. -/
theorem mutating_op_backup_abort (transform : String → Option String) (emsg : String)
    (cfg : InjectionConfig) (copyOk : Bool) (bname : String) (fs : FileSys)
    (path : String) (hb : cfg.backup_enabled = true) (hc : copyOk = false) :
    mutating_op transform emsg cfg copyOk bname fs path =
      (fs, .error (.FileWriteError bname)) := by
  simp [mutating_op, backup_file, hb, hc]

/-- A successful backup leaves the target unchanged and, when backups are
enabled, stores the target's current contents under the backup name. -/
theorem backup_file_ok (cfg : InjectionConfig) (copyOk : Bool) (bname : String)
    (fs : FileSys) (path : String) (fs1 : FileSys)
    (h : backup_file cfg copyOk bname fs path = (fs1, .ok ())) (hbn : bname ≠ path) :
    readFile fs1 path = readFile fs path ∧
      (cfg.backup_enabled = true → readFile fs1 bname = readFile fs path) := by
  unfold backup_file at h
  by_cases hb : cfg.backup_enabled = false
  · rw [if_pos hb] at h
    have hfs : fs = fs1 := congrArg Prod.fst h
    rw [← hfs]
    exact ⟨rfl, fun hbt => absurd hb (by simp [hbt])⟩
  · rw [if_neg hb] at h
    by_cases hc : copyOk = false
    · rw [if_pos hc] at h
      simp at h
    · rw [if_neg hc] at h
      cases hr : readFile fs path with
      | none =>
        rw [hr] at h
        simp at h
      | some c =>
        rw [hr] at h
        have hfs1 : fs1 = writeFile fs bname c := (congrArg Prod.fst h).symm
        subst hfs1
        constructor
        · rw [readFile_writeFile_ne fs bname path c (fun hh => hbn hh.symm)]
          exact hr
        · intro _
          rw [readFile_writeFile_self fs bname c]

/-- When the shaped operation succeeds with backups enabled, the backup file
holds the target's unmodified pre-operation contents. -/
theorem mutating_op_backup_holds_original (transform : String → Option String)
    (emsg : String) (cfg : InjectionConfig) (copyOk : Bool) (bname : String)
    (fs : FileSys) (path : String) (fs' : FileSys) (hbn : bname ≠ path)
    (hok : mutating_op transform emsg cfg copyOk bname fs path = (fs', .ok ()))
    (hb : cfg.backup_enabled = true) :
    readFile fs' bname = readFile fs path := by
  unfold mutating_op at hok
  rcases hbk : backup_file cfg copyOk bname fs path with ⟨fs1, rb⟩
  rw [hbk] at hok
  cases rb with
  | error e => simp at hok
  | ok u =>
    cases u
    dsimp only at hok
    obtain ⟨hpath, hbck⟩ := backup_file_ok cfg copyOk bname fs path fs1 hbk hbn
    cases hr : readFile fs1 path with
    | none =>
      rw [hr] at hok
      simp at hok
    | some content =>
      rw [hr] at hok
      dsimp only at hok
      cases htr : transform content with
      | none =>
        rw [htr] at hok
        simp at hok
      | some c2 =>
        rw [htr] at hok
        have hfs' : fs' = writeFile fs1 path c2 := (congrArg Prod.fst hok).symm
        subst hfs'
        rw [readFile_writeFile_ne fs1 path bname c2 hbn]
        exact hbck hb

/-- C6: with backups enabled, every mutating injector operation
(`inject_token` on a non-`Custom` file kind, and `remove_token`) copies the
unmodified target into the backup before any mutation — on success the backup
holds the pre-operation contents — and if the backup copy fails the operation
returns the backup error with the filesystem (in particular the target file)
unchanged. -/
theorem mutating_ops_backup_first
    (cfg : InjectionConfig) (copyOk : Bool) (bname : String) (suffix cmdIdx : Nat)
    (key : String) (jc : Codec JsonValue) (yc : Codec YamlValue)
    (fs : FileSys) (path : String) (t : Honeytoken)
    (hb : cfg.backup_enabled = true) (hbn : bname ≠ path)
    (hnc : ∀ nm, cfg.file_type ≠ .Custom nm) :
    (copyOk = false →
      FileInjectionService.inject_token cfg copyOk bname suffix key cmdIdx jc yc
          fs path t =
        (fs, .error (.FileWriteError bname)) ∧
      FileInjectionService.remove_token cfg copyOk bname fs path t =
        (fs, .error (.FileWriteError bname))) ∧
    (∀ fs',
      FileInjectionService.inject_token cfg copyOk bname suffix key cmdIdx jc yc
          fs path t =
        (fs', .ok ()) →
      readFile fs' bname = readFile fs path) ∧
    (∀ fs',
      FileInjectionService.remove_token cfg copyOk bname fs path t = (fs', .ok ()) →
      readFile fs' bname = readFile fs path) := by
  have hopi : ∃ tr em,
      FileInjectionService.inject_token cfg copyOk bname suffix key cmdIdx jc yc
          fs path t =
        mutating_op tr em cfg copyOk bname fs path := by
    cases hft : cfg.file_type with
    | Env =>
      obtain ⟨tr, em, h⟩ := inject_env_shape cfg copyOk bname suffix fs path t
      exact ⟨tr, em, by rw [FileInjectionService.inject_token, hft, h]⟩
    | Json =>
      obtain ⟨tr, em, h⟩ := inject_json_shape cfg copyOk bname key jc fs path t
      exact ⟨tr, em, by rw [FileInjectionService.inject_token, hft, h]⟩
    | Yaml =>
      obtain ⟨tr, em, h⟩ := inject_yaml_shape cfg copyOk bname key yc fs path t
      exact ⟨tr, em, by rw [FileInjectionService.inject_token, hft, h]⟩
    | BashHistory =>
      obtain ⟨tr, em, h⟩ := inject_bash_history_shape cfg copyOk bname cmdIdx fs path t
      exact ⟨tr, em, by rw [FileInjectionService.inject_token, hft, h]⟩
    | Custom nm => exact absurd hft (hnc nm)
  obtain ⟨tri, emi, hi⟩ := hopi
  obtain ⟨trr, emr, hr⟩ := remove_token_shape cfg copyOk bname fs path t
  refine ⟨fun hc => ⟨?_, ?_⟩, fun fs' hok => ?_, fun fs' hok => ?_⟩
  · rw [hi]
    exact mutating_op_backup_abort tri emi cfg copyOk bname fs path hb hc
  · rw [hr]
    exact mutating_op_backup_abort trr emr cfg copyOk bname fs path hb hc
  · rw [hi] at hok
    exact mutating_op_backup_holds_original tri emi cfg copyOk bname fs path fs' hbn hok hb
  · rw [hr] at hok
    exact mutating_op_backup_holds_original trr emr cfg copyOk bname fs path fs' hbn hok hb

theorem mutating_ops_backup_first_witness :
    (("backups/b.txt" : String) ≠ "f.txt") ∧
    FileInjectionService.remove_token ⟨.Env, true, none⟩ false "backups/b.txt"
        [("f.txt", "a tok b")] "f.txt" ⟨1, "tok", "f.txt", 0, none, false⟩ =
      ([("f.txt", "a tok b")], .error (.FileWriteError ("backups/b.txt"))) ∧
    readFile
        (FileInjectionService.remove_token ⟨.Env, true, none⟩ true "backups/b.txt"
          [("f.txt", "a tok b")] "f.txt" ⟨1, "tok", "f.txt", 0, none, false⟩).1
        "backups/b.txt" =
      readFile [("f.txt", "a tok b")] "f.txt" :=
  ⟨by decide,
    ((mutating_ops_backup_first ⟨.Env, true, none⟩ false "backups/b.txt" 1 2 "k"
      jsonCodec yamlCodec [("f.txt", "a tok b")] "f.txt"
      ⟨1, "tok", "f.txt", 0, none, false⟩ rfl (by decide)
      (fun nm h => by cases h)).1 rfl).2,
    (mutating_ops_backup_first ⟨.Env, true, none⟩ true "backups/b.txt" 1 2 "k"
      jsonCodec yamlCodec [("f.txt", "a tok b")] "f.txt"
      ⟨1, "tok", "f.txt", 0, none, false⟩ rfl (by decide)
      (fun nm h => by cases h)).2.2
      (FileInjectionService.remove_token ⟨.Env, true, none⟩ true "backups/b.txt"
        [("f.txt", "a tok b")] "f.txt" ⟨1, "tok", "f.txt", 0, none, false⟩).1 rfl⟩

/-! ## Properties of the literal scrub (`str::replace`) -/

theorem leadsWith_append (pat r : List Char) : leadsWith pat (pat ++ r) = true := by
  induction pat with
  | nil => rfl
  | cons p ps ih => simp [leadsWith, ih]

theorem leadsWith_exists (pat : List Char) :
    ∀ s, leadsWith pat s = true → ∃ b, s = pat ++ b := by
  induction pat with
  | nil => intro s _; exact ⟨s, rfl⟩
  | cons p ps ih =>
    intro s h
    cases s with
    | nil => simp [leadsWith] at h
    | cons c cs =>
      simp only [leadsWith, Bool.and_eq_true, beq_iff_eq] at h
      obtain ⟨b, hb⟩ := ih cs h.2
      exact ⟨b, by simp [hb, h.1]⟩

theorem countOccF_nil_pat : ∀ (fuel : Nat) (s : List Char), countOccF [] fuel s = 0 := by
  intro fuel
  induction fuel with
  | zero => intro s; cases s <;> rfl
  | succ f ih =>
    intro s
    cases s with
    | nil => rfl
    | cons c rest => simp [countOccF, ih]

theorem listReplaceF_of_count_zero (pat rep : List Char) :
    ∀ (fuel : Nat) (s : List Char), countOccF pat fuel s = 0 →
      listReplaceF pat rep fuel s = s := by
  intro fuel
  induction fuel with
  | zero => intro s _; cases s <;> rfl
  | succ f ih =>
    intro s h
    cases s with
    | nil => rfl
    | cons c rest =>
      by_cases hm : (pat ≠ [] ∧ leadsWith pat (c :: rest) = true)
      · simp only [countOccF, if_pos hm] at h
        omega
      · simp only [countOccF, if_neg hm] at h
        simp only [listReplaceF, if_neg hm]
        rw [ih rest h]

theorem countOccF_zero_of_no_occ (pat : List Char) :
    ∀ (fuel : Nat) (s : List Char), (∀ a b, s ≠ a ++ pat ++ b) →
      countOccF pat fuel s = 0 := by
  intro fuel
  induction fuel with
  | zero => intro s _; cases s <;> rfl
  | succ f ih =>
    intro s hno
    cases s with
    | nil => rfl
    | cons c rest =>
      by_cases hm : (pat ≠ [] ∧ leadsWith pat (c :: rest) = true)
      · obtain ⟨b, hb⟩ := leadsWith_exists pat _ hm.2
        exact absurd (by simpa using hb) (hno [] b)
      · simp only [countOccF, if_neg hm]
        apply ih
        intro a b hab
        exact hno (c :: a) b (by simp [hab])

/-- A contents scanned to contain exactly one occurrence decomposes around it,
and the replacement substitutes exactly there. -/
theorem countOcc_one_decomp (pat rep : List Char) :
    ∀ (fuel : Nat) (s : List Char), countOccF pat fuel s = 1 →
      ∃ a b, s = a ++ pat ++ b ∧ listReplaceF pat rep fuel s = a ++ rep ++ b := by
  intro fuel
  induction fuel with
  | zero =>
    intro s h
    cases s <;> simp [countOccF] at h
  | succ f ih =>
    intro s h
    cases s with
    | nil => simp [countOccF] at h
    | cons c rest =>
      by_cases hm : (pat ≠ [] ∧ leadsWith pat (c :: rest) = true)
      · obtain ⟨b, hb⟩ := leadsWith_exists pat _ hm.2
        have hdrop : (c :: rest).drop pat.length = b := by
          rw [hb]
          exact List.drop_left pat b
        simp only [countOccF, if_pos hm, hdrop] at h
        have hz : countOccF pat f b = 0 := by omega
        refine ⟨[], b, by simpa using hb, ?_⟩
        simp only [listReplaceF, if_pos hm, hdrop]
        rw [listReplaceF_of_count_zero pat rep f b hz]
        simp
      · simp only [countOccF, if_neg hm] at h
        obtain ⟨a, b, hab, hrep⟩ := ih rest h
        refine ⟨c :: a, b, by simp [hab], ?_⟩
        simp only [listReplaceF, if_neg hm]
        rw [hrep]
        simp

/-- Splitting an occurrence that begins inside the replacement text: when the
pattern shares no character with the replacement, the occurrence must lie
entirely after it. -/
theorem rep_head_split (pat : List Char) (hp : pat ≠ []) :
    ∀ (rep X a b : List Char), (∀ c ∈ pat, c ∉ rep) →
      rep ++ X = a ++ pat ++ b →
      ∃ a2, a = rep ++ a2 ∧ X = a2 ++ pat ++ b := by
  intro rep
  induction rep with
  | nil =>
    intro X a b _ h
    exact ⟨a, by simp, by simpa using h⟩
  | cons r rr ih =>
    intro X a b hd h
    cases a with
    | nil =>
      cases hpat : pat with
      | nil => exact absurd hpat hp
      | cons p0 ps =>
        rw [hpat] at h
        simp only [List.nil_append, List.cons_append] at h
        injection h with h1 h2
        have hmem : p0 ∈ pat := by
          rw [hpat]
          exact List.mem_cons_self _ _
        have hnot : p0 ∉ r :: rr := hd p0 hmem
        have : p0 ∈ r :: rr := by
          rw [h1]
          exact List.mem_cons_self _ _
        exact absurd this hnot
    | cons a0 as =>
      simp only [List.cons_append] at h
      injection h with h1 h2
      obtain ⟨a2, ha2, hX⟩ :=
        ih X as b (fun ch hc hmem => hd ch hc (List.mem_cons_of_mem r hmem)) h2
      exact ⟨a2, by simp [ha2, ← h1], hX⟩

/-- A pattern-charset-free prefix of the replacement output is a prefix of the
input. -/
theorem replace_out_pref (pat rep : List Char) (hrep : rep ≠ []) :
    ∀ (fuel : Nat) (u pat2 b2 : List Char), (∀ c ∈ pat2, c ∉ rep) →
      pat2 ++ b2 = listReplaceF pat rep fuel u →
      ∃ w, u = pat2 ++ w := by
  intro fuel
  induction fuel with
  | zero =>
    intro u pat2 b2 _ h
    cases u with
    | nil =>
      have h0 : pat2 = [] ∧ b2 = [] := List.append_eq_nil.1 h
      exact ⟨[], by simp [h0.1]⟩
    | cons c rest => exact ⟨b2, h.symm⟩
  | succ f ih =>
    intro u pat2 b2 hd h
    cases u with
    | nil =>
      have h0 : pat2 = [] ∧ b2 = [] := List.append_eq_nil.1 h
      exact ⟨[], by simp [h0.1]⟩
    | cons c rest =>
      by_cases hm : (pat ≠ [] ∧ leadsWith pat (c :: rest) = true)
      · simp only [listReplaceF, if_pos hm] at h
        cases pat2 with
        | nil => exact ⟨c :: rest, by simp⟩
        | cons q qs =>
          cases hrepc : rep with
          | nil => exact absurd hrepc hrep
          | cons r0 rs =>
            rw [hrepc] at h
            simp only [List.cons_append] at h
            injection h with h1 h2
            have hqmem : q ∈ q :: qs := List.mem_cons_self _ _
            have hnot : q ∉ rep := hd q hqmem
            have : q ∈ rep := by
              rw [hrepc, h1]
              exact List.mem_cons_self _ _
            exact absurd this hnot
      · simp only [listReplaceF, if_neg hm] at h
        cases pat2 with
        | nil => exact ⟨c :: rest, by simp⟩
        | cons q qs =>
          simp only [List.cons_append] at h
          injection h with h1 h2
          obtain ⟨w, hw⟩ :=
            ih rest qs b2 (fun ch hc => hd ch (List.mem_cons_of_mem q hc)) h2
          exact ⟨w, by simp [hw, h1]⟩

/-- With the pattern's characters disjoint from the replacement's, the
replacement output contains no occurrence of the pattern at all. -/
theorem replace_no_occurrence (pat rep : List Char) (hp : pat ≠ []) (hrep : rep ≠ [])
    (hdisj : ∀ c ∈ pat, c ∉ rep) :
    ∀ (fuel : Nat) (s : List Char), s.length ≤ fuel →
      ∀ a b, listReplaceF pat rep fuel s ≠ a ++ pat ++ b := by
  have hl : pat.length ≠ 0 := by simpa [List.length_eq_zero] using hp
  intro fuel
  induction fuel with
  | zero =>
    intro s hle a b
    cases s with
    | nil =>
      intro hcontra
      rw [show listReplaceF pat rep 0 ([] : List Char) = [] from rfl] at hcontra
      have := congrArg List.length hcontra
      simp only [List.length_nil, List.length_append] at this
      omega
    | cons c rest => simp at hle
  | succ f ihf =>
    intro s hle a b hcontra
    cases s with
    | nil =>
      rw [show listReplaceF pat rep (f + 1) ([] : List Char) = [] from rfl] at hcontra
      have := congrArg List.length hcontra
      simp only [List.length_nil, List.length_append] at this
      omega
    | cons c rest =>
      by_cases hm : (pat ≠ [] ∧ leadsWith pat (c :: rest) = true)
      · obtain ⟨bb, hbb⟩ := leadsWith_exists pat _ hm.2
        have hdrop : (c :: rest).drop pat.length = bb := by
          rw [hbb]
          exact List.drop_left pat bb
        simp only [listReplaceF, if_pos hm, hdrop] at hcontra
        obtain ⟨a2, ha2, hX⟩ :=
          rep_head_split pat hp rep (listReplaceF pat rep f bb) a b hdisj
            (by simpa [List.append_assoc] using hcontra)
        have hlen : bb.length ≤ f := by
          have h1 := congrArg List.length hbb
          simp only [List.length_cons, List.length_append] at h1
          simp only [List.length_cons] at hle
          omega
        exact ihf bb hlen a2 b hX
      · simp only [listReplaceF, if_neg hm] at hcontra
        cases a with
        | nil =>
          cases hpat : pat with
          | nil => exact hp hpat
          | cons p0 ps =>
            rw [hpat] at hcontra
            simp only [List.nil_append, List.cons_append] at hcontra
            injection hcontra with h1 h2
            obtain ⟨w, hw⟩ := replace_out_pref (p0 :: ps) rep hrep f rest ps b
              (fun ch hc => hdisj ch (by rw [hpat]; exact List.mem_cons_of_mem p0 hc))
              h2.symm
            apply hm
            refine ⟨hp, ?_⟩
            rw [hpat, hw, ← h1]
            simp [leadsWith, leadsWith_append]
        | cons a0 as =>
          simp only [List.cons_append] at hcontra
          injection hcontra with h1 h2
          have hlen : rest.length ≤ f := by
            simp only [List.length_cons] at hle
            omega
          exact ihf rest hlen as b h2

/-- C8 counterexample: the literal scrub can create a fresh occurrence of the
token value spanning the boundary of the redaction marker.  On the file
`"D]YY"` with value `"D]Y"` (occurring exactly once), the scrub succeeds and
writes `"[REDACTED]Y"` — which again contains `"D]Y"`, so the claimed "zero
occurrences of the raw value" is false as stated. -/
theorem remove_token_scrub_counterexample :
    countOcc ("D]Y").data ("D]YY").data = 1 ∧
    FileInjectionService.remove_token ⟨.Env, false, none⟩ true ("b")
        [("f.txt", "D]YY")] "f.txt" ⟨1, "D]Y", "f.txt", 0, none, false⟩ =
      ([("f.txt", "[REDACTED]Y")], .ok ()) ∧
    countOcc ("D]Y").data ("[REDACTED]Y").data = 1 := by
  refine ⟨by decide, rfl, by decide⟩

/-- C8 (amended): the injector's `remove_token` rewrites the file with every
leftmost non-overlapping occurrence of the token value replaced by
`[REDACTED]`; on a file containing the value exactly once the marker appears
in its place, and — provided the value shares no character with the marker, so
no fresh occurrence can form across the marker's boundary — zero occurrences
of the raw value remain. -/
theorem remove_token_scrub_amended (cfg : InjectionConfig) (copyOk : Bool)
    (bname : String) (fs : FileSys) (path : String) (t : Honeytoken)
    (fs1 : FileSys) (content : String)
    (hbk : backup_file cfg copyOk bname fs path = (fs1, Except.ok ()))
    (hrd : readFile fs1 path = some content)
    (honce : countOcc t.value.data content.data = 1)
    (hdisj : ∀ c ∈ t.value.data, c ∉ ("[REDACTED]").data) :
    ∃ a b, content.data = a ++ t.value.data ++ b ∧
      FileInjectionService.remove_token cfg copyOk bname fs path t =
        (writeFile fs1 path ⟨a ++ ("[REDACTED]").data ++ b⟩, .ok ()) ∧
      countOcc t.value.data (a ++ ("[REDACTED]").data ++ b) = 0 := by
  have hp : t.value.data ≠ [] := by
    intro h0
    rw [show t.value.data = ([] : List Char) from h0] at honce
    rw [countOcc, countOccF_nil_pat] at honce
    exact absurd honce (by decide)
  obtain ⟨a, b, hab, hrep⟩ :=
    countOcc_one_decomp t.value.data ("[REDACTED]").data content.data.length
      content.data honce
  refine ⟨a, b, hab, ?_, ?_⟩
  · unfold FileInjectionService.remove_token
    rw [hbk]
    dsimp only
    rw [hrd]
    dsimp only
    have hrr : rust_replace content t.value ("[REDACTED]") =
        ⟨a ++ ("[REDACTED]").data ++ b⟩ := by
      unfold rust_replace listReplace
      rw [hrep]
    rw [hrr]
  · have hnocc := replace_no_occurrence t.value.data ("[REDACTED]").data hp
      (by decide) hdisj content.data.length content.data (le_refl _)
    rw [hrep] at hnocc
    exact countOccF_zero_of_no_occ t.value.data _ _ hnocc

theorem remove_token_scrub_amended_witness :
    backup_file ⟨.Env, false, none⟩ true ("b") [("f.txt", "pre xyz post")] "f.txt" =
      ([("f.txt", "pre xyz post")], Except.ok ()) ∧
    readFile [("f.txt", "pre xyz post")] "f.txt" = some ("pre xyz post") ∧
    countOcc ("xyz").data ("pre xyz post").data = 1 ∧
    (∃ a b, ("pre xyz post").data = a ++ ("xyz").data ++ b ∧
      FileInjectionService.remove_token ⟨.Env, false, none⟩ true ("b")
          [("f.txt", "pre xyz post")] "f.txt" ⟨1, "xyz", "f.txt", 0, none, false⟩ =
        (writeFile [("f.txt", "pre xyz post")] "f.txt"
          ⟨a ++ ("[REDACTED]").data ++ b⟩, .ok ()) ∧
      countOcc ("xyz").data (a ++ ("[REDACTED]").data ++ b) = 0) :=
  ⟨rfl, rfl, by decide,
    remove_token_scrub_amended ⟨.Env, false, none⟩ true ("b")
      [("f.txt", "pre xyz post")] "f.txt" ⟨1, "xyz", "f.txt", 0, none, false⟩
      [("f.txt", "pre xyz post")] "pre xyz post" rfl rfl (by decide) (by decide)⟩

/-! ## Structured injection claims -/

theorem obj_insert_fresh (entries : List (String × JsonValue)) (k : String)
    (v : JsonValue) (h : entries.any (fun e => e.1 == k) = false) :
    obj_insert entries k v = entries ++ [(k, v)] := by
  simp [obj_insert, h]

theorem ymap_insert_fresh (entries : List (YamlValue × YamlValue)) (k v : YamlValue)
    (h : entries.any (fun e => ybeq e.1 k) = false) :
    ymap_insert entries k v = entries ++ [(k, v)] := by
  simp [ymap_insert, h]

theorem json_insert_non_obj (v : JsonValue) (key tv : String)
    (hno : ∀ kvs, v ≠ .obj kvs) :
    json_insert v key tv = .obj [(key, .str tv)] := by
  cases v with
  | obj kvs => exact absurd rfl (hno kvs)
  | null => rfl
  | bool b => rfl
  | num n => rfl
  | str s => rfl
  | arr xs => rfl

theorem yaml_insert_non_map (v : YamlValue) (key tv : String)
    (hno : ∀ kvs, v ≠ .map kvs) :
    yaml_insert v key tv = .map [(.str key, .str tv)] := by
  cases v with
  | map kvs => exact absurd rfl (hno kvs)
  | null => rfl
  | bool b => rfl
  | num n => rfl
  | str s => rfl
  | seq xs => rfl

/-- C7 counterexample: the randomly generated key can already occur in the
object root; `serde_json::Map::insert` then overwrites the existing entry, so
the rewritten document has the SAME number of keys — not "exactly one
additional key" as the claim states for every object-rooted file. -/
theorem inject_json_key_collision_counterexample :
    jsonCodec.par (jsonCodec.ser (.obj [("apiToken123", .str "old")])) =
      some (.obj [("apiToken123", .str "old")]) ∧
    inject_json ⟨.Json, false, none⟩ true ("b") "apiToken123" jsonCodec
        [("cfg.json", jsonCodec.ser (.obj [("apiToken123", .str "old")]))] "cfg.json"
        ⟨1, "tok", "cfg.json", 0, none, false⟩ =
      ([("cfg.json", jsonCodec.ser (.obj [("apiToken123", .str "tok")]))], .ok ()) ∧
    jsonCodec.par (jsonCodec.ser (.obj [("apiToken123", .str "tok")])) =
      some (.obj [("apiToken123", .str "tok")]) ∧
    ([("apiToken123", JsonValue.str "tok")] : List (String × JsonValue)).length =
      ([("apiToken123", JsonValue.str "old")] : List (String × JsonValue)).length := by
  refine ⟨jsonCodec_roundtrip _, ?_, jsonCodec_roundtrip _, rfl⟩
  unfold inject_json
  rw [show backup_file ⟨.Json, false, none⟩ true ("b")
      [("cfg.json", jsonCodec.ser (.obj [("apiToken123", .str "old")]))] "cfg.json" =
      ([("cfg.json", jsonCodec.ser (.obj [("apiToken123", .str "old")]))],
        Except.ok ()) from rfl]
  dsimp only
  rw [show readFile
      [("cfg.json", jsonCodec.ser (.obj [("apiToken123", .str "old")]))] "cfg.json" =
      some (jsonCodec.ser (.obj [("apiToken123", .str "old")])) from rfl]
  dsimp only
  rw [jsonCodec_roundtrip (.obj [("apiToken123", .str "old")])]
  rfl

/-- C7 (amended): injecting into a parsed JSON/YAML document with
object/mapping root rewrites the file to a document that still parses and —
provided the generated key does not already occur in the root — contains
exactly one additional entry whose value is the token value (a colliding key
instead has its value overwritten); injecting into a non-object/non-mapping
root replaces the root by the single-entry object/mapping carrying the token
value, and the result still parses. -/
theorem inject_structured_adds_token_key
    (cfg : InjectionConfig) (copyOk : Bool) (bname key : String)
    (jc : Codec JsonValue) (yc : Codec YamlValue)
    (fs fs1 : FileSys) (path content : String) (t : Honeytoken)
    (hjrt : jc.RoundTrip) (hyrt : yc.RoundTrip)
    (hbk : backup_file cfg copyOk bname fs path = (fs1, Except.ok ()))
    (hrd : readFile fs1 path = some content) :
    (∀ (kvs : List (String × JsonValue)), jc.par content = some (.obj kvs) →
      kvs.any (fun e => e.1 == key) = false →
      inject_json cfg copyOk bname key jc fs path t =
        (writeFile fs1 path (jc.ser (.obj (kvs ++ [(key, .str t.value)]))), .ok ()) ∧
      jc.par (jc.ser (.obj (kvs ++ [(key, .str t.value)]))) =
        some (.obj (kvs ++ [(key, .str t.value)])) ∧
      (kvs ++ [(key, JsonValue.str t.value)]).length = kvs.length + 1) ∧
    (∀ (v : JsonValue), jc.par content = some v → (∀ kvs, v ≠ .obj kvs) →
      inject_json cfg copyOk bname key jc fs path t =
        (writeFile fs1 path (jc.ser (.obj [(key, .str t.value)])), .ok ()) ∧
      jc.par (jc.ser (.obj [(key, .str t.value)])) =
        some (.obj [(key, .str t.value)])) ∧
    (∀ (kvs : List (YamlValue × YamlValue)), yc.par content = some (.map kvs) →
      kvs.any (fun e => ybeq e.1 (.str key)) = false →
      inject_yaml cfg copyOk bname key yc fs path t =
        (writeFile fs1 path
          (yc.ser (.map (kvs ++ [(.str key, .str t.value)]))), .ok ()) ∧
      yc.par (yc.ser (.map (kvs ++ [(.str key, .str t.value)]))) =
        some (.map (kvs ++ [(.str key, .str t.value)])) ∧
      (kvs ++ [(YamlValue.str key, YamlValue.str t.value)]).length = kvs.length + 1) ∧
    (∀ (v : YamlValue), yc.par content = some v → (∀ kvs, v ≠ .map kvs) →
      inject_yaml cfg copyOk bname key yc fs path t =
        (writeFile fs1 path (yc.ser (.map [(.str key, .str t.value)])), .ok ()) ∧
      yc.par (yc.ser (.map [(.str key, .str t.value)])) =
        some (.map [(.str key, .str t.value)])) := by
  refine ⟨?_, ?_, ?_, ?_⟩
  · intro kvs hp hfresh
    refine ⟨?_, hjrt _, by simp⟩
    unfold inject_json
    rw [hbk]
    dsimp only
    rw [hrd]
    dsimp only
    rw [hp]
    dsimp only
    rw [show json_insert (.obj kvs) key t.value =
        .obj (kvs ++ [(key, .str t.value)]) from by
      simp [json_insert, obj_insert_fresh kvs key _ hfresh]]
  · intro v hp hno
    refine ⟨?_, hjrt _⟩
    unfold inject_json
    rw [hbk]
    dsimp only
    rw [hrd]
    dsimp only
    rw [hp]
    dsimp only
    rw [json_insert_non_obj v key t.value hno]
  · intro kvs hp hfresh
    refine ⟨?_, hyrt _, by simp⟩
    unfold inject_yaml
    rw [hbk]
    dsimp only
    rw [hrd]
    dsimp only
    rw [hp]
    dsimp only
    rw [show yaml_insert (.map kvs) key t.value =
        .map (kvs ++ [(.str key, .str t.value)]) from by
      simp [yaml_insert, ymap_insert_fresh kvs _ _ hfresh]]
  · intro v hp hno
    refine ⟨?_, hyrt _⟩
    unfold inject_yaml
    rw [hbk]
    dsimp only
    rw [hrd]
    dsimp only
    rw [hp]
    dsimp only
    rw [yaml_insert_non_map v key t.value hno]

theorem inject_structured_adds_token_key_witness :
    (inject_json ⟨.Json, false, none⟩ true ("b") "apiToken1" jsonCodec
        [("d.json", jsonCodec.ser (.obj []))] "d.json"
        ⟨1, "tok", "d.json", 0, none, false⟩ =
      (writeFile [("d.json", jsonCodec.ser (.obj []))] "d.json"
        (jsonCodec.ser (.obj [("apiToken1", .str "tok")])), .ok ())) ∧
    (inject_json ⟨.Json, false, none⟩ true ("b") "apiToken1" jsonCodec
        [("n.json", jsonCodec.ser .null)] "n.json"
        ⟨1, "tok", "n.json", 0, none, false⟩ =
      (writeFile [("n.json", jsonCodec.ser .null)] "n.json"
        (jsonCodec.ser (.obj [("apiToken1", .str "tok")])), .ok ())) ∧
    (inject_yaml ⟨.Yaml, false, none⟩ true ("b") "apiToken1" yamlCodec
        [("d.yaml", yamlCodec.ser (.map []))] "d.yaml"
        ⟨1, "tok", "d.yaml", 0, none, false⟩ =
      (writeFile [("d.yaml", yamlCodec.ser (.map []))] "d.yaml"
        (yamlCodec.ser (.map [(.str "apiToken1", .str "tok")])), .ok ())) ∧
    (inject_yaml ⟨.Yaml, false, none⟩ true ("b") "apiToken1" yamlCodec
        [("n.yaml", yamlCodec.ser .null)] "n.yaml"
        ⟨1, "tok", "n.yaml", 0, none, false⟩ =
      (writeFile [("n.yaml", yamlCodec.ser .null)] "n.yaml"
        (yamlCodec.ser (.map [(.str "apiToken1", .str "tok")])), .ok ())) :=
  ⟨((inject_structured_adds_token_key ⟨.Json, false, none⟩ true ("b") "apiToken1"
      jsonCodec yamlCodec [("d.json", jsonCodec.ser (.obj []))]
      [("d.json", jsonCodec.ser (.obj []))] "d.json" (jsonCodec.ser (.obj []))
      ⟨1, "tok", "d.json", 0, none, false⟩ jsonCodec_roundtrip yamlCodec_roundtrip
      rfl rfl).1 [] (jsonCodec_roundtrip _) rfl).1,
    ((inject_structured_adds_token_key ⟨.Json, false, none⟩ true ("b") "apiToken1"
      jsonCodec yamlCodec [("n.json", jsonCodec.ser .null)]
      [("n.json", jsonCodec.ser .null)] "n.json" (jsonCodec.ser .null)
      ⟨1, "tok", "n.json", 0, none, false⟩ jsonCodec_roundtrip yamlCodec_roundtrip
      rfl rfl).2.1 .null (jsonCodec_roundtrip _)
        (fun kvs h => JsonValue.noConfusion h)).1,
    ((inject_structured_adds_token_key ⟨.Yaml, false, none⟩ true ("b") "apiToken1"
      jsonCodec yamlCodec [("d.yaml", yamlCodec.ser (.map []))]
      [("d.yaml", yamlCodec.ser (.map []))] "d.yaml" (yamlCodec.ser (.map []))
      ⟨1, "tok", "d.yaml", 0, none, false⟩ jsonCodec_roundtrip yamlCodec_roundtrip
      rfl rfl).2.2.1 [] (yamlCodec_roundtrip _) rfl).1,
    ((inject_structured_adds_token_key ⟨.Yaml, false, none⟩ true ("b") "apiToken1"
      jsonCodec yamlCodec [("n.yaml", yamlCodec.ser .null)]
      [("n.yaml", yamlCodec.ser .null)] "n.yaml" (yamlCodec.ser .null)
      ⟨1, "tok", "n.yaml", 0, none, false⟩ jsonCodec_roundtrip yamlCodec_roundtrip
      rfl rfl).2.2.2 .null (yamlCodec_roundtrip _)
        (fun kvs h => YamlValue.noConfusion h)).1⟩

/-! ## Persisted-store round trip -/

theorem alist_insert_fresh (m : List (Nat × Honeytoken)) (k : Nat) (t : Honeytoken)
    (h : m.any (fun e => e.1 == k) = false) :
    alist_insert m k t = m ++ [(k, t)] := by
  simp [alist_insert, h]

theorem fold_alist_insert (l : List Honeytoken) :
    ∀ acc : List (Nat × Honeytoken),
      (∀ e ∈ acc, ∀ u ∈ l, e.1 ≠ u.id) →
      List.Pairwise (fun a b => a.id ≠ b.id) l →
      l.foldl (fun m u => alist_insert m u.id u) acc =
        acc ++ l.map (fun u => (u.id, u)) := by
  induction l with
  | nil =>
    intro acc _ _
    simp
  | cons t rest ih =>
    intro acc hacc hpw
    obtain ⟨hh, hpw2⟩ := List.pairwise_cons.1 hpw
    have hfresh : acc.any (fun e => e.1 == t.id) = false := by
      rw [List.any_eq_false]
      intro e he
      simp only [beq_iff_eq]
      exact hacc e he t (List.mem_cons_self _ _)
    simp only [List.foldl_cons]
    rw [alist_insert_fresh acc t.id t hfresh]
    rw [ih (acc ++ [(t.id, t)]) ?_ hpw2]
    · simp
    · intro e he u hu
      rcases List.mem_append.1 he with hacc2 | hsing
      · exact hacc e hacc2 u (List.mem_cons_of_mem t hu)
      · rw [List.mem_singleton] at hsing
        rw [hsing]
        exact hh u hu

theorem read_db_of_file (dc : Codec (List Honeytoken)) (db : String)
    (hrt : dc.RoundTrip)
    (hnb : ∀ l, (dc.ser l).data.all Char.isWhitespace = false)
    (fs : FileSys) (l : List Honeytoken)
    (hpw : List.Pairwise (fun a b => a.id ≠ b.id) l)
    (hc : readFile fs db = some (dc.ser l)) :
    read_db dc fs db = .ok (l.map (fun u => (u.id, u))) := by
  unfold read_db
  rw [hc]
  dsimp only
  rw [hnb l]
  simp only [Bool.false_eq_true, if_false]
  rw [hrt l]
  dsimp only
  rw [fold_alist_insert l [] (by simp) hpw]
  simp

theorem save_from_state (dc : Codec (List Honeytoken)) (db : String)
    (hrt : dc.RoundTrip)
    (hnb : ∀ l, (dc.ser l).data.all Char.isWhitespace = false)
    (fs : FileSys) (l : List Honeytoken) (t : Honeytoken)
    (hpw : List.Pairwise (fun a b => a.id ≠ b.id) l)
    (hfresh : ∀ u ∈ l, u.id ≠ t.id)
    (hstate : readFile fs db = some (dc.ser l) ∨ (l = [] ∧ readFile fs db = none)) :
    FileTokenRepository.save dc fs db t =
      .ok (writeFile fs db (dc.ser (l ++ [t]))) := by
  have hread : read_db dc fs db = .ok (l.map (fun u => (u.id, u))) := by
    rcases hstate with h | ⟨hl, h⟩
    · exact read_db_of_file dc db hrt hnb fs l hpw h
    · subst hl
      unfold read_db
      rw [h]
      rfl
  unfold FileTokenRepository.save
  rw [hread]
  dsimp only
  have hfr : (l.map (fun u => (u.id, u))).any (fun e => e.1 == t.id) = false := by
    rw [List.any_eq_false]
    intro e he
    simp only [List.mem_map] at he
    obtain ⟨u, hu, rfl⟩ := he
    simp only [beq_iff_eq]
    exact hfresh u hu
  rw [alist_insert_fresh _ _ _ hfr]
  unfold write_db
  have hcomp : ((fun (e : Nat × Honeytoken) => e.2) ∘ fun u => (u.id, u)) =
      fun u => u := by
    funext u
    rfl
  congr 2
  simp [List.map_map, hcomp]

theorem save_all_state (dc : Codec (List Honeytoken)) (db : String)
    (hrt : dc.RoundTrip)
    (hnb : ∀ l, (dc.ser l).data.all Char.isWhitespace = false) :
    ∀ (ts done : List Honeytoken) (fs : FileSys),
      List.Pairwise (fun a b => a.id ≠ b.id) (done ++ ts) →
      (readFile fs db = some (dc.ser done) ∨ (done = [] ∧ readFile fs db = none)) →
      ∃ fs', FileTokenRepository.save_all dc db fs ts = .ok fs' ∧
        (readFile fs' db = some (dc.ser (done ++ ts)) ∨
          (done ++ ts = [] ∧ readFile fs' db = none)) := by
  intro ts
  induction ts with
  | nil =>
    intro done fs _ hstate
    exact ⟨fs, rfl, by simpa using hstate⟩
  | cons t rest ih =>
    intro done fs hpw hstate
    have h1 : List.Pairwise (fun a b => a.id ≠ b.id) done :=
      (List.pairwise_append.1 hpw).1
    have hcross := (List.pairwise_append.1 hpw).2.2
    have hfresh : ∀ u ∈ done, u.id ≠ t.id :=
      fun u hu => hcross u hu t (List.mem_cons_self _ _)
    have hsave := save_from_state dc db hrt hnb fs done t h1 hfresh hstate
    have hpw2 : List.Pairwise (fun a b => a.id ≠ b.id) ((done ++ [t]) ++ rest) := by
      rw [List.append_assoc]
      exact hpw
    have hstate2 : readFile (writeFile fs db (dc.ser (done ++ [t]))) db =
        some (dc.ser (done ++ [t])) := readFile_writeFile_self fs db _
    obtain ⟨fs', hall, hfin⟩ :=
      ih (done ++ [t]) (writeFile fs db (dc.ser (done ++ [t]))) hpw2 (Or.inl hstate2)
    refine ⟨fs', ?_, ?_⟩
    · unfold FileTokenRepository.save_all
      rw [hsave]
      exact hall
    · rw [show done ++ t :: rest = (done ++ [t]) ++ rest from by simp]
      exact hfin

/-- C9: persisting any list of distinct-id tokens into the file-backed store
(one `save` per token, starting from an absent backing file) succeeds, and
decoding the backing file through `find_all` yields exactly the same records,
identical in every attribute. -/
theorem store_round_trip (dc : Codec (List Honeytoken)) (db : String)
    (hrt : dc.RoundTrip)
    (hnb : ∀ l, (dc.ser l).data.all Char.isWhitespace = false)
    (ts : List Honeytoken) (hids : List.Pairwise (fun a b => a.id ≠ b.id) ts)
    (fs0 : FileSys) (hempty : readFile fs0 db = none) :
    ∃ fs', FileTokenRepository.save_all dc db fs0 ts = .ok fs' ∧
      FileTokenRepository.find_all dc fs' db = .ok ts := by
  obtain ⟨fs', hall, hfin⟩ :=
    save_all_state dc db hrt hnb ts [] fs0 (by simpa using hids)
      (Or.inr ⟨rfl, hempty⟩)
  refine ⟨fs', hall, ?_⟩
  rcases hfin with h | ⟨hnil, h⟩
  · have hread := read_db_of_file dc db hrt hnb fs' ts hids (by simpa using h)
    unfold FileTokenRepository.find_all
    rw [hread]
    dsimp only
    have hcomp : ((fun (e : Nat × Honeytoken) => e.2) ∘ fun u => (u.id, u)) =
        fun u => u := by
      funext u
      rfl
    congr 1
    simp [List.map_map, hcomp]
  · have hts : ts = [] := by simpa using hnil
    subst hts
    unfold FileTokenRepository.find_all read_db
    rw [h]
    rfl

theorem store_round_trip_witness :
    readFile [] "db.json" = none ∧
    List.Pairwise (fun (a b : Honeytoken) => a.id ≠ b.id)
      [⟨1, "v1", "f1", 10, none, false⟩, ⟨2, "v2", "f2", 20, some 5, true⟩] ∧
    ∃ fs', FileTokenRepository.save_all dbCodec "db.json" []
        [⟨1, "v1", "f1", 10, none, false⟩, ⟨2, "v2", "f2", 20, some 5, true⟩] =
          .ok fs' ∧
      FileTokenRepository.find_all dbCodec fs' "db.json" =
        .ok [⟨1, "v1", "f1", 10, none, false⟩, ⟨2, "v2", "f2", 20, some 5, true⟩] :=
  ⟨rfl, by simp [List.pairwise_cons],
    store_round_trip dbCodec "db.json" dbCodec_roundtrip dbCodec_ser_not_blank
      [⟨1, "v1", "f1", 10, none, false⟩, ⟨2, "v2", "f2", 20, some 5, true⟩]
      (by simp [List.pairwise_cons]) [] rfl⟩

end RedToken
